import Mathlib

/-!
Verification of the polyutils surface-geometry module (cortex/polyutils.py).

The module is embedded shallowly over an arbitrary `LinearOrderedField K`
standing for exact real arithmetic.  The three numpy primitives that can
produce irrational values (`np.sqrt`, `np.exp`, `np.log2`) are passed to the
embedded definitions as explicit function parameters; faithful statements
instantiate them at `K = ℝ` with `Real.sqrt`, `Real.exp`, `Real.logb 2`,
while concrete witnesses instantiate `K = ℚ` with `Rat.sqrt` on inputs chosen
so that every square root taken is a square root of a perfect square (hence
exact).  Division by zero follows the Lean convention `x / 0 = 0`; the meshes
appearing in all concrete statements avoid the corresponding numpy NaN paths.

The sparse LU factorizations produced by `scipy.sparse.linalg.dsolve.factorized`
are external collaborators of the module (spec section 6); they are modelled as
oracle functions `List K → List K` mapping the right-hand side restricted to
the good rows to a solution vector on the good rows.
-/

namespace Polyutils

/-- A 3-coordinate point, matching one row of the `pts` array. -/
abbrev Vec3 (K : Type) := K × K × K

variable {K : Type} [LinearOrderedField K]

/-- Componentwise addition of 3-vectors. -/
def vadd (a b : Vec3 K) : Vec3 K := (a.1 + b.1, a.2.1 + b.2.1, a.2.2 + b.2.2)

/-- Componentwise subtraction of 3-vectors. -/
def vsub (a b : Vec3 K) : Vec3 K := (a.1 - b.1, a.2.1 - b.2.1, a.2.2 - b.2.2)

/-- Scalar multiple of a 3-vector. -/
def smul3 (c : K) (a : Vec3 K) : Vec3 K := (c * a.1, c * a.2.1, c * a.2.2)

/-- Dot product of 3-vectors, `(a * b).sum(1)` in numpy. -/
def dot3 (a b : Vec3 K) : K := a.1 * b.1 + a.2.1 * b.2.1 + a.2.2 * b.2.2

/-- Cross product of 3-vectors, `np.cross`. -/
def cross3 (a b : Vec3 K) : Vec3 K :=
  (a.2.1 * b.2.2 - a.2.2 * b.2.1,
   a.2.2 * b.1 - a.1 * b.2.2,
   a.1 * b.2.1 - a.2.1 * b.1)

/-- Squared Euclidean norm, `(a**2).sum(1)`. -/
def normSq3 (a : Vec3 K) : K := a.1 * a.1 + a.2.1 * a.2.1 + a.2.2 * a.2.2

/-- A triangular surface mesh: the `pts` coordinate array and the `polys`
face-index array of the `Surface` constructor. -/
structure Mesh (K : Type) where
  pts : List (Vec3 K)
  polys : List (ℕ × ℕ × ℕ)

/-- A face as the list of its three vertex indices. -/
def faceVerts (f : ℕ × ℕ × ℕ) : List ℕ := [f.1, f.2.1, f.2.2]

/-- `polys[f]`, with an arbitrary default outside the valid range. -/
def polyAt (m : Mesh K) (f : ℕ) : ℕ × ℕ × ℕ := m.polys.getD f (0, 0, 0)

/-- `pts[v]`, with an arbitrary default outside the valid range. -/
def getPt (m : Mesh K) (v : ℕ) : Vec3 K := m.pts.getD v (0, 0, 0)

/-- Number of times vertex `v` occurs in face `f` (the vertex-face incidence
matrix `connected` is assembled from one unit entry per face slot, so repeated
slots accumulate). -/
def vcount (v : ℕ) (f : ℕ × ℕ × ℕ) : ℕ :=
  (if f.1 = v then 1 else 0) + (if f.2.1 = v then 1 else 0) +
    (if f.2.2 = v then 1 else 0)

/-- `connected[v].indices`: the (ascending) list of faces incident to vertex
`v`, i.e. the nonzero columns of row `v` of the sparse incidence matrix. -/
def connectedFaces (m : Mesh K) (v : ℕ) : List ℕ :=
  (List.range m.polys.length).filter (fun f => v ∈ faceVerts (polyAt m f))

/-- `ppts[f]`: the three corner coordinates of face `f`. -/
def ppts (m : Mesh K) (f : ℕ) : Vec3 K × Vec3 K × Vec3 K :=
  (getPt m (polyAt m f).1, getPt m (polyAt m f).2.1, getPt m (polyAt m f).2.2)

/-- `face_normals`: `np.cross(ppts[:,1] - ppts[:,0], ppts[:,2] - ppts[:,0])`. -/
def face_normals (m : Mesh K) (f : ℕ) : Vec3 K :=
  cross3 (vsub (ppts m f).2.1 (ppts m f).1) (vsub (ppts m f).2.2 (ppts m f).1)

/-- Euclidean magnitude of a 3-vector, for a given square-root function. -/
def mag3 (sqrt : K → K) (a : Vec3 K) : K := sqrt (normSq3 a)

/-- `face_areas`: `np.sqrt((face_normals**2).sum(-1))`. -/
def face_areas (sqrt : K → K) (m : Mesh K) (f : ℕ) : K :=
  sqrt (normSq3 (face_normals m f))

/-- The standalone `face_area` utility:
`0.5 * np.sqrt((np.cross(pts[:,1]-pts[:,0], pts[:,2]-pts[:,0])**2).sum(1))`
applied to one triangle given by its three corner coordinates. -/
def face_area (sqrt : K → K) (tri : Vec3 K × Vec3 K × Vec3 K) : K :=
  (1 / 2) * sqrt (normSq3 (cross3 (vsub tri.2.1 tri.1) (vsub tri.2.2 tri.1)))

/-- `cotangent_weights` row 1: cotangent of the angle at the face's vertex 0. -/
def cots1 (sqrt : K → K) (m : Mesh K) (f : ℕ) : K :=
  let p := ppts m f
  dot3 (vsub p.2.1 p.1) (vsub p.2.2 p.1) /
    sqrt (normSq3 (cross3 (vsub p.2.1 p.1) (vsub p.2.2 p.1)))

/-- `cotangent_weights` row 2: cotangent of the angle at the face's vertex 1. -/
def cots2 (sqrt : K → K) (m : Mesh K) (f : ℕ) : K :=
  let p := ppts m f
  dot3 (vsub p.2.2 p.2.1) (vsub p.1 p.2.1) /
    sqrt (normSq3 (cross3 (vsub p.2.2 p.2.1) (vsub p.1 p.2.1)))

/-- `cotangent_weights` row 3: cotangent of the angle at the face's vertex 2. -/
def cots3 (sqrt : K → K) (m : Mesh K) (f : ℕ) : K :=
  let p := ppts m f
  dot3 (vsub p.1 p.2.2) (vsub p.2.1 p.2.2) /
    sqrt (normSq3 (cross3 (vsub p.1 p.2.2) (vsub p.2.1 p.2.2)))

/-- The lumped mass matrix `D = connected.dot(face_areas) / 3.0` of
`laplace_operator` (a vector: one value per vertex). -/
def laplaceD (sqrt : K → K) (m : Mesh K) (v : ℕ) : K :=
  (((List.range m.polys.length).map
      (fun f => (vcount v (polyAt m f) : K) * face_areas sqrt m f)).sum) / 3

/-- Entry `(i, j)` of the weighted adjacency matrix
`W = (W1 + W1.T + W2 + W2.T + W3 + W3.T).tocsr() / 2.0` of `laplace_operator`,
where `W1`, `W2`, `W3` scatter the three cotangent rows onto the vertex pairs
`(polys[:,1], polys[:,2])`, `(polys[:,2], polys[:,0])`, `(polys[:,0], polys[:,1])`. -/
def laplaceW (sqrt : K → K) (m : Mesh K) (i j : ℕ) : K :=
  (((List.range m.polys.length).map (fun f =>
      (if (polyAt m f).2.1 = i ∧ (polyAt m f).2.2 = j then cots1 sqrt m f else 0) +
      (if (polyAt m f).2.2 = i ∧ (polyAt m f).2.1 = j then cots1 sqrt m f else 0) +
      (if (polyAt m f).2.2 = i ∧ (polyAt m f).1 = j then cots2 sqrt m f else 0) +
      (if (polyAt m f).1 = i ∧ (polyAt m f).2.2 = j then cots2 sqrt m f else 0) +
      (if (polyAt m f).1 = i ∧ (polyAt m f).2.1 = j then cots3 sqrt m f else 0) +
      (if (polyAt m f).2.1 = i ∧ (polyAt m f).1 = j then cots3 sqrt m f else 0))).sum) / 2

/-- Diagonal entry `j` of `V`, the column sums of `W`. -/
def laplaceV (sqrt : K → K) (m : Mesh K) (j : ℕ) : K :=
  ((List.range m.pts.length).map (fun i => laplaceW sqrt m i j)).sum

/-- The strict-upper-triangle edge list `sparse.triu(adj, 1)` of `W` used by
`avg_edge_length`: pairs `(i, j)` with `i < j` and a nonzero `W` entry. -/
def triuEdges (sqrt : K → K) (m : Mesh K) : List (ℕ × ℕ) :=
  (List.range m.pts.length).flatMap (fun i =>
    ((List.range m.pts.length).filter
        (fun j => i < j ∧ laplaceW sqrt m i j ≠ 0)).map (fun j => (i, j)))

/-- `avg_edge_length`: mean Euclidean length of the edges in the strict upper
triangle of `W`. -/
def avg_edge_length (sqrt : K → K) (m : Mesh K) : K :=
  (((triuEdges sqrt m).map
      (fun e => sqrt (normSq3 (vsub (getPt m e.1) (getPt m e.2))))).sum) /
    ((triuEdges sqrt m).length : K)

/-- Entry `(i, j)` of the negative laplace matrix `nLC = W - V`. -/
def nLC (sqrt : K → K) (m : Mesh K) (i j : ℕ) : K :=
  laplaceW sqrt m i j - (if i = j then laplaceV sqrt m j else 0)

/-- Entry `(i, j)` of the backward Euler matrix `lfac = spD - t * nLC`, where
`t = m * avg_edge_length ** 2` is the heat-evolution time for parameter `mm`. -/
def lfacEntry (sqrt : K → K) (m : Mesh K) (mm : K) (i j : ℕ) : K :=
  (if i = j then laplaceD sqrt m i else 0) -
    (mm * avg_edge_length sqrt m ^ 2) * nLC sqrt m i j

/-- Column sum `lfac.sum(0)` of the backward Euler matrix at column `j`. -/
def colsumLfac (sqrt : K → K) (m : Mesh K) (mm : K) (j : ℕ) : K :=
  ((List.range m.pts.length).map (fun i => lfacEntry sqrt m mm i j)).sum

/-- `goodrows`: the rows/columns of `lfac` whose column sum is not exactly
zero; only these participate in the two linear solves. -/
def goodrows (sqrt : K → K) (m : Mesh K) (mm : K) : List ℕ :=
  (List.range m.pts.length).filter (fun j => colsumLfac sqrt m mm j ≠ 0)

/-- The initial heat vector `u0`: 1 at the source vertices, 0 elsewhere. -/
def heatU0 (verts : List ℕ) : ℕ → K := fun i => if i ∈ verts then (1 : K) else 0

/-- Scatter a vector given on the rows `rows` back to all indices, with zeros
elsewhere (`u = np.zeros(npt); u[goodrows] = goodu`). -/
def scatterRows (rows : List ℕ) (vals : List K) : ℕ → K :=
  fun i => if i ∈ rows then vals.getD (rows.indexOf i) 0 else 0

/-- Minimum of a list (`ndarray.min()`; 0 for the empty list, on which numpy
would instead fail). -/
def listMin : List K → K
  | [] => 0
  | x :: xs => xs.foldl min x

/-- The per-face heat gradient `gradu` computed from a heat field `u`. -/
def graduF (sqrt : K → K) (m : Mesh K) (u : ℕ → K) (f : ℕ) : Vec3 K :=
  let p := ppts m f
  let fn := face_normals m f
  smul3 (1 / (2 * face_areas sqrt m f))
    (vadd (vadd (smul3 (u (polyAt m f).2.2) (cross3 fn (vsub p.2.1 p.1)))
                (smul3 (u (polyAt m f).1) (cross3 fn (vsub p.2.2 p.2.1))))
          (smul3 (u (polyAt m f).2.1) (cross3 fn (vsub p.1 p.2.2))))

/-- The normalized negative gradient field `X = -gradu / |gradu|`. -/
def XF (sqrt : K → K) (m : Mesh K) (u : ℕ → K) (f : ℕ) : Vec3 K :=
  smul3 (1 / sqrt (normSq3 (graduF sqrt m u f))) (smul3 (-1) (graduF sqrt m u f))

/-- Per-face divergence contribution scattered onto the face's vertex 0. -/
def divContrib1 (sqrt : K → K) (m : Mesh K) (u : ℕ → K) (f : ℕ) : K :=
  let p := ppts m f
  (1 / 2) * (cots3 sqrt m f * dot3 (vsub p.2.1 p.1) (XF sqrt m u f) +
             cots2 sqrt m f * dot3 (vsub p.2.2 p.1) (XF sqrt m u f))

/-- Per-face divergence contribution scattered onto the face's vertex 1. -/
def divContrib2 (sqrt : K → K) (m : Mesh K) (u : ℕ → K) (f : ℕ) : K :=
  let p := ppts m f
  (1 / 2) * (cots1 sqrt m f * dot3 (vsub p.2.2 p.2.1) (XF sqrt m u f) +
             cots3 sqrt m f * dot3 (vsub p.1 p.2.1) (XF sqrt m u f))

/-- Per-face divergence contribution scattered onto the face's vertex 2. -/
def divContrib3 (sqrt : K → K) (m : Mesh K) (u : ℕ → K) (f : ℕ) : K :=
  let p := ppts m f
  (1 / 2) * (cots2 sqrt m f * dot3 (vsub p.1 p.2.2) (XF sqrt m u f) +
             cots1 sqrt m f * dot3 (vsub p.2.1 p.2.2) (XF sqrt m u f))

/-- The integrated divergence `divx` of `X` at vertex `v` (the three
coo-matrix scatters summed into one dense row). -/
def divxF (sqrt : K → K) (m : Mesh K) (u : ℕ → K) (v : ℕ) : K :=
  (((List.range m.polys.length).map (fun f =>
      let p := polyAt m f
      (if p.1 = v then divContrib1 sqrt m u f else 0) +
      (if p.2.1 = v then divContrib2 sqrt m u f else 0) +
      (if p.2.2 = v then divContrib3 sqrt m u f else 0))).sum)

/-- `geodesic_distance(verts, m)`: the heat-method distance field.  The two
cached factorized solvers (`_rlfac_solvers[m]` for `lfac` and `_nLC_solvers[m]`
for `nLC`, both restricted to the good rows) are external collaborators and
enter as the oracle parameters `solveL` and `solveN`, mapping a right-hand
side restricted to the good rows to a solution on the good rows. -/
def geodesic_distance (sqrt : K → K) (m : Mesh K) (verts : List ℕ) (mm : K)
    (solveL solveN : List K → List K) : ℕ → K :=
  let gr := goodrows sqrt m mm
  let goodu := solveL (gr.map (heatU0 verts))
  let u : ℕ → K := scatterRows gr goodu
  let goodphi := solveN (gr.map (divxF sqrt m u))
  fun v => if v ∈ gr then goodphi.getD (gr.indexOf v) 0 - listMin goodphi else 0

/-! ### Distortion metrics -/

/-- The local `area` helper of `Distortion.areal`: unhalved cross-product
magnitude of face `f` of `polys` over the embedding `pts`. -/
def distArea (sqrt : K → K) (pts : List (Vec3 K)) (polys : List (ℕ × ℕ × ℕ))
    (f : ℕ) : K :=
  let q := polys.getD f (0, 0, 0)
  let p0 := pts.getD q.1 (0, 0, 0)
  let p1 := pts.getD q.2.1 (0, 0, 0)
  let p2 := pts.getD q.2.2 (0, 0, 0)
  sqrt (normSq3 (cross3 (vsub p1 p0) (vsub p2 p0)))

/-- `tridists = np.log2(flatarea / refarea)` for face `f`. -/
def tridists (sqrt log2 : K → K) (flat ref : List (Vec3 K))
    (polys : List (ℕ × ℕ × ℕ)) (f : ℕ) : K :=
  log2 (distArea sqrt flat polys f / distArea sqrt ref polys f)

/-- Result at position `v` of the buffered fancy-indexed statement
`a[idxs] += vals` applied to a zero array: the value of the last pair whose
index is `v` (numpy does not accumulate over repeated indices), `0` if `v`
does not occur in `idxs`. -/
def slotWrite (idxs : List ℕ) (vals : List K) (v : ℕ) : K :=
  ((((idxs.zip vals).filter (fun p => p.1 = v)).getLast?).map Prod.snd).getD 0

/-- `np.bincount(polys.ravel())` at `v`: number of slots of `polys` equal to
`v`. -/
def bincount (polys : List (ℕ × ℕ × ℕ)) (v : ℕ) : ℕ :=
  (polys.map (fun q => vcount v q)).sum

/-- The per-vertex averaged ratio of `Distortion.areal` before the final
zero-remap: the three buffered scatters of `tridists` onto the slot columns,
divided by the bincount (`np.nan_to_num` is the identity here since exact
arithmetic uses the convention `0 / 0 = 0`). -/
def vertRatios (sqrt log2 : K → K) (flat ref : List (Vec3 K))
    (polys : List (ℕ × ℕ × ℕ)) (v : ℕ) : K :=
  (slotWrite (polys.map (fun q => q.1))
      ((List.range polys.length).map (tridists sqrt log2 flat ref polys)) v +
   slotWrite (polys.map (fun q => q.2.1))
      ((List.range polys.length).map (tridists sqrt log2 flat ref polys)) v +
   slotWrite (polys.map (fun q => q.2.2))
      ((List.range polys.length).map (tridists sqrt log2 flat ref polys)) v) /
    (bincount polys v : K)

/-- `Distortion.areal` at vertex `v`: the averaged ratio with exact zeros
remapped to 1 (`vertratios[vertratios==0] = 1`). -/
def areal (sqrt log2 : K → K) (flat ref : List (Vec3 K))
    (polys : List (ℕ × ℕ × ℕ)) (v : ℕ) : K :=
  if vertRatios sqrt log2 flat ref polys v = 0 then 1
  else vertRatios sqrt log2 flat ref polys v

/-! ### Scalar-field smoothing -/

/-- The recursive neighbor generator `getpts(pt, n)` of `Surface.smooth`:
at depth 0 it yields the vertices of the faces incident to `pt`, otherwise it
recurses one level deeper from each such vertex. -/
def getpts (m : Mesh K) (pt : ℕ) : ℕ → List ℕ
  | 0 => (connectedFaces m pt).flatMap (fun f => faceVerts (polyAt m f))
  | n + 1 => (connectedFaces m pt).flatMap (fun f =>
      (faceVerts (polyAt m f)).flatMap (fun q => getpts m q n))

/-- The per-vertex closure `func(i)` of `Surface.smooth`: over the
deduplicated gathered neighbors (`list(set(getpts(i, neighborhood)))`),
returns `(g * scalars[neighbors]).mean()` with
`g = exp(-(diff**2)/(2*bandwidth**2))`, or 0 for an empty neighbor list.
`gexp` stands for `np.exp`. -/
def smoothFunc (gexp : K → K) (m : Mesh K) (scalars : List K)
    (neighborhood : ℕ) (bw : K) (i : ℕ) : K :=
  if (getpts m i neighborhood).dedup = [] then 0
  else (((getpts m i neighborhood).dedup.map (fun j =>
      gexp (-(scalars.getD j 0 - scalars.getD i 0) ^ 2 / (2 * bw ^ 2)) *
        scalars.getD j 0)).sum) / (((getpts m i neighborhood).dedup.length) : K)

/-- `Surface.smooth(scalars, neighborhood, smooth)`.  Fails (`none`) when the
scalar field's length differs from the vertex count; otherwise maps the
per-vertex closure over all indices. -/
def smooth (gexp : K → K) (m : Mesh K) (scalars : List K) (neighborhood : ℕ)
    (bw : K) : Option (List K) :=
  if scalars.length ≠ m.pts.length then none
  else some ((List.range scalars.length).map
    (smoothFunc gexp m scalars neighborhood bw))

/-- The smoothing operation as claim C2 words it: the Gaussian-weighted mean,
i.e. the sum of weight times value divided by the sum of the weights over the
same gathered neighbor set (0 for an empty neighbor set).  This definition
follows the claim's words, for comparison against `smooth`. -/
def smoothClaimedMean (gexp : K → K) (m : Mesh K) (scalars : List K)
    (neighborhood : ℕ) (bw : K) (i : ℕ) : K :=
  let nbrs := (getpts m i neighborhood).dedup
  if nbrs = [] then 0
  else ((nbrs.map (fun j =>
      gexp (-(scalars.getD j 0 - scalars.getD i 0) ^ 2 / (2 * bw ^ 2)) *
        scalars.getD j 0)).sum) /
    ((nbrs.map (fun j =>
      gexp (-(scalars.getD j 0 - scalars.getD i 0) ^ 2 / (2 * bw ^ 2)))).sum)

/-! ### Per-vertex patches -/

/-- The data yielded by `Surface.patches` for one vertex: either a stack of
coordinate triangles or a flat stack of points. -/
inductive PatchData (K : Type) where
  | tris : List (Vec3 K × Vec3 K × Vec3 K) → PatchData K
  | flatpts : List (Vec3 K) → PatchData K
deriving DecidableEq

/-- `align_polys(p, polys)`: every rotation of a face of `polys` that puts an
occurrence of `p` first, in row-major occurrence order. -/
def alignPolys (p : ℕ) (polys : List (ℕ × ℕ × ℕ)) : List (ℕ × ℕ × ℕ) :=
  polys.flatMap (fun q =>
    (if q.1 = p then [(q.1, q.2.1, q.2.2)] else []) ++
    (if q.2.1 = p then [(q.2.1, q.2.2, q.1)] else []) ++
    (if q.2.2 = p then [(q.2.2, q.1, q.2.1)] else []))

/-- Face midpoint used by the half-edge patches. -/
def faceMid (P : ℕ → Vec3 K) (q : ℕ × ℕ × ℕ) : Vec3 K :=
  smul3 (1 / 3) (vadd (vadd (P q.1) (P q.2.1)) (P q.2.2))

/-- Midpoint of the edge from an aligned face's slots 0 and 2 (`left`). -/
def edgeMidLeft (P : ℕ → Vec3 K) (q : ℕ × ℕ × ℕ) : Vec3 K :=
  smul3 (1 / 2) (vadd (P q.1) (P q.2.2))

/-- Midpoint of the edge from an aligned face's slots 0 and 1 (`right`). -/
def edgeMidRight (P : ℕ → Vec3 K) (q : ℕ × ℕ × ℕ) : Vec3 K :=
  smul3 (1 / 2) (vadd (P q.1) (P q.2.1))

/-- `half_edge_align(p, pts, polys)`: the stacked triangles
`(pts[p], mid, left)` then `(pts[p], mid, right)` over the aligned faces. -/
def halfEdgeAlign (p : ℕ) (P : ℕ → Vec3 K) (polys : List (ℕ × ℕ × ℕ)) :
    List (Vec3 K × Vec3 K × Vec3 K) :=
  let aligned := alignPolys p polys
  aligned.map (fun q => (P p, faceMid P q, edgeMidLeft P q)) ++
    aligned.map (fun q => (P p, faceMid P q, edgeMidRight P q))

/-- `half_edge(p, pts, polys)`: stacks the face midpoints, left and right edge
midpoints and `pts[p]`, then keeps the rows that coincide with no other row
(`(distance.cdist(stack, stack) == 0).sum(0) == 1`; in exact arithmetic a zero
Euclidean distance is coordinate equality). -/
def halfEdge (p : ℕ) (P : ℕ → Vec3 K) (polys : List (ℕ × ℕ × ℕ)) :
    List (Vec3 K) :=
  let aligned := alignPolys p polys
  let stack := aligned.map (faceMid P) ++ aligned.map (edgeMidLeft P) ++
    aligned.map (edgeMidRight P) ++ [P p]
  stack.filter (fun r => stack.count r = 1)

/-- `np.unique(polys[faces])`: the sorted deduplicated vertex ids. -/
def uniqueVerts (polys : List (ℕ × ℕ × ℕ)) : List ℕ :=
  (polys.flatMap faceVerts).dedup.mergeSort (fun a b => a ≤ b)

/-- One yield of the `Surface.patches` generator, at vertex `p`: `none` for a
vertex with no incident face, otherwise the patch for granularity `n = 1` or
`n = 0.5`, and an invalid-argument error (`ValueError`) for any other
granularity. -/
def patchOne (m : Mesh K) (aux : Option (List (Vec3 K))) (n : ℚ) (p : ℕ) :
    Except Unit (Option (PatchData K)) :=
  let faces := connectedFaces m p
  if faces = [] then .ok none
  else if n = 1 then
    match aux with
    | some a =>
        let pidx := uniqueVerts (faces.map (polyAt m))
        .ok (some (.flatpts (pidx.map (getPt m) ++
          pidx.map (fun v => a.getD v (0, 0, 0)))))
    | none => .ok (some (.tris (faces.map (fun f => ppts m f))))
  else if n = 1 / 2 then
    match aux with
    | some a =>
        .ok (some (.flatpts (halfEdge p (getPt m) (faces.map (polyAt m)) ++
          halfEdge p (fun v => a.getD v (0, 0, 0)) (faces.map (polyAt m)))))
    | none => .ok (some (.tris (halfEdgeAlign p (getPt m) (faces.map (polyAt m)))))
  else .error ()

/-- Consume the `patches` generator over a list of vertices, stopping at the
first raised error. -/
def patchesGo (m : Mesh K) (aux : Option (List (Vec3 K))) (n : ℚ) :
    List ℕ → Except Unit (List (Option (PatchData K)))
  | [] => .ok []
  | v :: vs =>
    match patchOne m aux n v with
    | .error e => .error e
    | .ok pd =>
      match patchesGo m aux n vs with
      | .error e => .error e
      | .ok rest => .ok (pd :: rest)

/-- `Surface.patches(auxpts, n)`, fully consumed over all vertices. -/
def patches (m : Mesh K) (aux : Option (List (Vec3 K))) (n : ℚ) :
    Except Unit (List (Option (PatchData K))) :=
  patchesGo m aux n (List.range m.pts.length)

/-! ### Chunk extraction -/

/-- Breadth-first state of `extract_chunk`: the gathered faces (a Python set,
kept here in insertion order), the visited vertices, and the vertex queue. -/
structure ChunkState where
  faces : List ℕ
  visited : List ℕ
  queue : List ℕ
deriving DecidableEq

/-- Body of `for pt in self.polys[face]` of `extract_chunk`: mark an unvisited
vertex visited and enqueue it. -/
def chunkAddVert (vq : List ℕ × List ℕ) (pt : ℕ) : List ℕ × List ℕ :=
  if pt ∈ vq.1 then vq else (vq.1 ++ [pt], vq.2 ++ [pt])

/-- Body of `for face in self.connected[node].indices` of `extract_chunk`:
add an unseen face and push its unvisited vertices. -/
def chunkStep (m : Mesh K) (st : ChunkState) (f : ℕ) : ChunkState :=
  if f ∈ st.faces then st
  else
    let vq := (faceVerts (polyAt m f)).foldl chunkAddVert (st.visited, st.queue)
    ⟨st.faces ++ [f], vq.1, vq.2⟩

/-- The BFS loop `while len(faces) < nfaces and len(queue) > 0` of
`extract_chunk`, with explicit fuel (the loop performs at most one queue pop
per iteration and at most `len(pts)` vertices are ever enqueued). -/
def chunkBFS (m : Mesh K) (nfaces : ℕ) : ℕ → ChunkState → ChunkState
  | 0, st => st
  | fuel + 1, st =>
    if st.faces.length < nfaces then
      match st.queue with
      | [] => st
      | node :: rest =>
        chunkBFS m nfaces fuel
          ((connectedFaces m node).foldl (chunkStep m) ⟨st.faces, st.visited, rest⟩)
    else st

/-- Renumbering state of the sub-mesh construction loop of `extract_chunk`:
the `ptmap` association, the new point list and the renumbered face list. -/
structure ChunkBuild (K : Type) where
  ptmap : List (ℕ × ℕ)
  pts : List (Vec3 K)
  polys : List (ℕ × ℕ × ℕ)

/-- Body of `for pt in self.polys[face]` of the sub-mesh construction loop:
assign a fresh id to an unseen vertex and append its coordinates. -/
def chunkAddPt (m : Mesh K) (pm : List (ℕ × ℕ) × List (Vec3 K)) (v : ℕ) :
    List (ℕ × ℕ) × List (Vec3 K) :=
  if (pm.1.lookup v).isSome then pm
  else (pm.1 ++ [(v, pm.2.length)], pm.2 ++ [getPt m v])

/-- One iteration of `for face in faces` of `extract_chunk`: assign fresh ids
to unseen vertices, append their coordinates, then append the renumbered face
(the `auxpts` branch parallels the `pts` list and is omitted). -/
def chunkBuildStep (m : Mesh K) (st : ChunkBuild K) (f : ℕ) : ChunkBuild K :=
  let q := polyAt m f
  let pmps := (faceVerts q).foldl (chunkAddPt m) (st.ptmap, st.pts)
  ⟨pmps.1, pmps.2,
    st.polys ++ [(((pmps.1.lookup q.1).getD 0), ((pmps.1.lookup q.2.1).getD 0),
      ((pmps.1.lookup q.2.2).getD 0))]⟩

/-- Invariant of the renumbering state of `extract_chunk`'s construction
loop: the new point list has one entry per `ptmap` key, holding that original
vertex's coordinates, and the assigned ids are `0, 1, 2, ...` in insertion
order. -/
structure BuildInv (m : Mesh K) (pm : List (ℕ × ℕ)) (pts : List (Vec3 K)) :
    Prop where
  len : pts.length = pm.length
  keyval : ∀ p ∈ pm, p.2 < pts.length ∧ pts.getD p.2 (0, 0, 0) = getPt m p.1
  vals : pm.map Prod.snd = List.range pm.length

/-- The gathered face set of `extract_chunk(nfaces, seed)`. -/
def chunkFaces (m : Mesh K) (nfaces seed : ℕ) : List ℕ :=
  (chunkBFS m nfaces (m.pts.length + 1) ⟨[], [seed], [seed]⟩).faces

/-- `extract_chunk(nfaces, seed)` (with an explicit seed; the reference draws
a random one when none is supplied): the renumbered sub-mesh `(pts, polys)`. -/
def extract_chunk (m : Mesh K) (nfaces seed : ℕ) :
    List (Vec3 K) × List (ℕ × ℕ × ℕ) :=
  let built := (chunkFaces m nfaces seed).foldl (chunkBuildStep m) ⟨[], [], []⟩
  (built.pts, built.polys)

/-- Invariant of `extract_chunk`'s breadth-first loop. -/
structure BFSInv (m : Mesh K) (seed : ℕ) (st : ChunkState) : Prop where
  sv : seed ∈ st.visited
  qv : ∀ v ∈ st.queue, v ∈ st.visited
  vnodup : st.visited.Nodup
  vrange : ∀ v ∈ st.visited, v < m.pts.length
  fnodup : st.faces.Nodup
  frange : ∀ f ∈ st.faces, f < m.polys.length
  fclosed : ∀ f ∈ st.faces, ∀ w ∈ faceVerts (polyAt m f), w ∈ st.visited
  processed : ∀ v ∈ st.visited,
    v ∈ st.queue ∨ ∀ f ∈ connectedFaces m v, f ∈ st.faces

/-- How a run of `chunkStep` over faces drawn from `fl` extends the BFS
state: visited and queue grow by one common suffix of vertices of `fl`-faces,
faces grow by a suffix drawn from `fl`, and closure/nodup facts transfer. -/
structure StepExt (m : Mesh K) (fl : List ℕ) (st st' : ChunkState) : Prop where
  vext : ∃ new, st'.visited = st.visited ++ new ∧ st'.queue = st.queue ++ new ∧
    ∀ x ∈ new, ∃ g ∈ fl, x ∈ faceVerts (polyAt m g)
  fext : ∃ newf, st'.faces = st.faces ++ newf ∧ ∀ g ∈ newf, g ∈ fl
  fcl : (∀ f0 ∈ st.faces, ∀ w ∈ faceVerts (polyAt m f0), w ∈ st.visited) →
    ∀ f0 ∈ st'.faces, ∀ w ∈ faceVerts (polyAt m f0), w ∈ st'.visited
  vnd : st.visited.Nodup → st'.visited.Nodup
  fnd : st.faces.Nodup → st'.faces.Nodup

/-- Vertices reachable from the seed in the vertex-face incidence graph (the
graph `extract_chunk`'s breadth-first search walks). -/
inductive ReachV (m : Mesh K) (seed : ℕ) : ℕ → Prop
  | base : ReachV m seed seed
  | step {v f w : ℕ} : ReachV m seed v → f ∈ connectedFaces m v →
      w ∈ faceVerts (polyAt m f) → ReachV m seed w

/-- A face reachable from the seed: incident to some reachable vertex. -/
def FaceReach (m : Mesh K) (seed f : ℕ) : Prop :=
  ∃ v, ReachV m seed v ∧ f ∈ connectedFaces m v

/-- Claim C6's conclusion, following its words: the returned sub-mesh
contains every original vertex and every original face up to (injective)
vertex renumbering. -/
def containsWholeMesh (m : Mesh K) (res : List (Vec3 K) × List (ℕ × ℕ × ℕ)) :
    Prop :=
  ∃ ρ : ℕ → ℕ,
    (∀ v w, v < m.pts.length → w < m.pts.length → ρ v = ρ w → v = w) ∧
    (∀ v, v < m.pts.length →
      ρ v < res.1.length ∧ res.1.getD (ρ v) (0, 0, 0) = getPt m v) ∧
    (∀ f, f < m.polys.length →
      (ρ (polyAt m f).1, ρ (polyAt m f).2.1, ρ (polyAt m f).2.2) ∈ res.2)

/-- Fixture: two disjoint triangles plus an isolated vertex 3 (a disconnected
mesh, on which a breadth-first search from vertex 0 cannot see face 1 or
vertices 3..6). -/
def dMesh : Mesh ℚ :=
  ⟨[(0, 0, 0), (1, 0, 0), (0, 1, 0), (5, 5, 5),
    (9, 0, 0), (10, 0, 0), (9, 1, 0)], [(0, 1, 2), (4, 5, 6)]⟩

/-! ### Loop tracing -/

/-- `idx[v]` of `trace_poly`: indices of the edges incident to vertex `v`. -/
def edgeIdx (edges : List (ℕ × ℕ)) (v : ℕ) : List ℕ :=
  (List.range edges.length).filter
    (fun i => (edges.getD i (0, 0)).1 = v ∨ (edges.getD i (0, 0)).2 = v)

/-- The inner `while poly[-1] != poly[0] or len(poly) == 1` loop of
`trace_poly`, with fuel.  Returns the completed polygon and the remaining
unused edge indices, or `none` on any of the reference's failure paths
(no unused incident edge: `IndexError`; chosen edge already consumed by an
earlier polygon: `KeyError`; chosen edge not containing the current endpoint:
`raise Exception`; or fuel exhaustion, which cannot occur since every
iteration consumes an edge). -/
def traceOne (edges : List (ℕ × ℕ)) :
    ℕ → List ℕ → List ℕ → List ℕ → Option (List ℕ × List ℕ)
  | 0, _, _, _ => none
  | fuel + 1, eset, stack, poly =>
    if poly.getLastD 0 = poly.headD 0 ∧ poly.length ≠ 1 then some (poly, eset)
    else
      match (edgeIdx edges (poly.getLastD 0)).filter (fun i => i ∉ stack) with
      | [] => none
      | nxt :: _ =>
        if nxt ∈ eset then
          let e := edges.getD nxt (0, 0)
          if e.1 = poly.getLastD 0 then
            traceOne edges fuel (eset.erase nxt) (stack ++ [nxt]) (poly ++ [e.2])
          else if e.2 = poly.getLastD 0 then
            traceOne edges fuel (eset.erase nxt) (stack ++ [nxt]) (poly ++ [e.1])
          else none
        else none

/-- The outer `while len(eset) > 0` loop of `trace_poly`, popping a remaining
edge index and tracing one polygon from it. -/
def tracePolysGo (edges : List (ℕ × ℕ)) : ℕ → List ℕ → Option (List (List ℕ))
  | 0, _ => none
  | fuel + 1, eset =>
    match eset with
    | [] => some []
    | eidx :: rest =>
      let e := edges.getD eidx (0, 0)
      match traceOne edges (edges.length + 1) rest [eidx] [e.1, e.2] with
      | none => none
      | some (poly, eset2) =>
        match tracePolysGo edges fuel eset2 with
        | none => none
        | some ps => some (poly :: ps)

/-- `trace_poly(edges)`: all polygons yielded by the generator (the Python
set pops are modelled by list order; under the single-cycle hypothesis every
choice set is a singleton, so the order is immaterial). -/
def trace_poly (edges : List (ℕ × ℕ)) : Option (List (List ℕ)) :=
  tracePolysGo edges (edges.length + 1) (List.range edges.length)

/-- The consecutive vertex pairs of a traced polygon. -/
def consecPairs (p : List ℕ) : List (ℕ × ℕ) := p.zip p.tail

/-- An edge as an unordered pair (smaller endpoint first). -/
def undirEdge (e : ℕ × ℕ) : ℕ × ℕ := (min e.1 e.2, max e.1 e.2)

/-- The input edge list forms one closed cycle on `k ≥ 3` distinct vertices
`v 0, ..., v (k-1)`: the list enumerates, via the permutation `π` of the
index range and with an arbitrary orientation per edge, exactly the cycle
edges `(v i, v ((i+1) % k))`. -/
def IsSingleCycle (edges : List (ℕ × ℕ)) (k : ℕ) (v π : ℕ → ℕ) : Prop :=
  3 ≤ k ∧ edges.length = k ∧
  (∀ i j, i < k → j < k → v i = v j → i = j) ∧
  (∀ j, j < k → π j < k) ∧
  (∀ i j, i < k → j < k → π i = π j → i = j) ∧
  (∀ j, j < k → edges.getD j (0, 0) = (v (π j), v ((π j + 1) % k)) ∨
    edges.getD j (0, 0) = (v ((π j + 1) % k), v (π j)))

/-- A cycle vertex addressed by a `ZMod k` index. -/
def cycVert (k : ℕ) (v : ℕ → ℕ) (z : ZMod k) : ℕ := v z.val

/-- The vertex the traced polygon holds at position `t`: starting at cycle
position `a0` and walking in direction `d` (`1` or `-1`). -/
def stepVert (k : ℕ) (v : ℕ → ℕ) (a0 d : ZMod k) (t : ℕ) : ℕ :=
  cycVert k v (a0 + d * (t : ZMod k))

/-- The cycle position whose cycle edge joins polygon positions `s` and
`s + 1` of the walk. -/
def stepEdge (k : ℕ) (a0 d : ZMod k) (s : ℕ) : ZMod k :=
  if d = 1 then a0 + (s : ZMod k) else a0 + d * ((s : ZMod k) + 1)

/-- Bundled data for the traced walk: a single-cycle enumeration together
with a start position and direction matching the first listed edge. -/
structure CycleSetup (edges : List (ℕ × ℕ)) (k : ℕ) (v π : ℕ → ℕ)
    (a0 d : ZMod k) : Prop where
  k3 : 3 ≤ k
  len : edges.length = k
  vinj : ∀ i j, i < k → j < k → v i = v j → i = j
  pirange : ∀ j, j < k → π j < k
  piinj : ∀ i j, i < k → j < k → π i = π j → i = j
  edgeor : ∀ j, j < k → edges.getD j (0, 0) = (v (π j), v ((π j + 1) % k)) ∨
    edges.getD j (0, 0) = (v ((π j + 1) % k), v (π j))
  dunit : d = 1 ∨ d = -1
  e0 : edges.getD 0 (0, 0) = (stepVert k v a0 d 0, stepVert k v a0 d 1)

/-! ### Concrete fixtures for witnesses and counterexamples -/

/-- Exact square-root table for the fixture meshes below: it agrees with the
real square root on every value it is applied to in those meshes (all such
values are perfect squares), which is what makes the rational instantiations
exact. -/
def wsqrt : ℚ → ℚ := fun q =>
  if q = 9 then 3 else if q = 16 then 4 else if q = 25 then 5
  else if q = 64 then 8 else if q = 144 then 12 else if q = 576 then 24 else 0

/-- Fixture: a 3-4-5 right triangle together with an isolated vertex 3 (a
"bad" row of the backward-Euler matrix). -/
def wMesh : Mesh ℚ :=
  ⟨[(0, 0, 0), (4, 0, 0), (0, 3, 0), (9, 9, 9)], [(0, 1, 2)]⟩

/-- Fixture: an isoceles 8-5-5 triangle (all edge lengths and both the face
area and every square root taken along the geodesic pipeline are rational). -/
def cMesh : Mesh ℚ :=
  ⟨[(-4, 0, 0), (4, 0, 0), (0, 3, 0)], [(0, 1, 2)]⟩

/-- Fixture: a single real-coordinate triangle (used with `Real.exp` where the
genuine Gaussian kernel matters; only the topology is used by `smooth`). -/
def rMesh : Mesh ℝ :=
  ⟨[(0, 0, 0), (4, 0, 0), (0, 3, 0)], [(0, 1, 2)]⟩

/-- Fixture: one vertex and no faces at all. -/
def eMesh : Mesh ℚ := ⟨[(0, 0, 0)], []⟩

/-! ### General helper lemmas -/

theorem sum_map_sub (l : List ℕ) (f g : ℕ → K) :
    (l.map (fun i => f i - g i)).sum = (l.map f).sum - (l.map g).sum := by
  induction l with
  | nil => simp
  | cons a t ih => simp [ih]; ring

theorem sum_map_ite_eq (n j : ℕ) (x : ℕ → K) :
    ((List.range n).map (fun i => if i = j then x i else 0)).sum =
      if j < n then x j else 0 := by
  induction n with
  | zero => simp
  | succ n ih =>
    rw [List.range_succ, List.map_append, List.sum_append, ih]
    by_cases h2 : j = n
    · subst h2
      simp [lt_irrefl, Nat.lt_succ_self]
    · have hne : n ≠ j := fun hh => h2 hh.symm
      by_cases h : j < n
      · simp [h, Nat.lt_succ_of_lt h, hne]
      · have h3 : ¬ j < n + 1 := by omega
        simp [h, h3, hne]

theorem foldl_min_le_init (l : List K) (a : K) : l.foldl min a ≤ a := by
  induction l generalizing a with
  | nil => simp
  | cons b t ih => exact le_trans (ih (min a b)) (min_le_left a b)

theorem foldl_min_le_mem (l : List K) : ∀ (a x : K), x ∈ l → l.foldl min a ≤ x := by
  induction l with
  | nil => intro a x hx; cases hx
  | cons b t ih =>
    intro a x hx
    rcases List.mem_cons.mp hx with rfl | h
    · rw [List.foldl_cons]
      exact le_trans (foldl_min_le_init t (min a x)) (min_le_right a x)
    · exact ih (min a b) x h

theorem listMin_le {l : List K} {x : K} (hx : x ∈ l) : listMin l ≤ x := by
  cases l with
  | nil => cases hx
  | cons a t =>
    show t.foldl min a ≤ x
    rcases List.mem_cons.mp hx with h | h
    · exact h ▸ foldl_min_le_init t a
    · exact foldl_min_le_mem t a x h

theorem foldl_min_mem (l : List K) : ∀ a : K, l.foldl min a = a ∨ l.foldl min a ∈ l := by
  induction l with
  | nil => exact fun a => Or.inl rfl
  | cons b t ih =>
    intro a
    rw [List.foldl_cons]
    rcases ih (min a b) with h | h
    · rw [h]
      rcases min_choice a b with h2 | h2
      · exact Or.inl h2
      · exact Or.inr (by rw [h2]; exact List.mem_cons_self b t)
    · exact Or.inr (List.mem_cons_of_mem b h)

theorem listMin_mem {l : List K} (h : l ≠ []) : listMin l ∈ l := by
  cases l with
  | nil => exact absurd rfl h
  | cons a t =>
    show t.foldl min a ∈ a :: t
    rcases foldl_min_mem t a with h1 | h1
    · rw [h1]; exact List.mem_cons_self a t
    · exact List.mem_cons_of_mem a h1

theorem colsumLfac_eq_laplaceD (sqrt : K → K) (m : Mesh K) (mm : K) (j : ℕ)
    (hj : j < m.pts.length) :
    colsumLfac sqrt m mm j = laplaceD sqrt m j := by
  unfold colsumLfac lfacEntry
  rw [sum_map_sub]
  have h1 : ((List.range m.pts.length).map
      (fun i => if i = j then laplaceD sqrt m i else 0)).sum = laplaceD sqrt m j := by
    rw [sum_map_ite_eq]
    simp [hj]
  have h2 : ((List.range m.pts.length).map
      (fun i => mm * avg_edge_length sqrt m ^ 2 * nLC sqrt m i j)).sum = 0 := by
    rw [List.sum_map_mul_left]
    unfold nLC
    rw [sum_map_sub, sum_map_ite_eq]
    simp only [hj, if_pos]
    rw [laplaceV]
    ring
  rw [h1, h2, sub_zero]

theorem goodrows_eq_filter_laplaceD (sqrt : K → K) (m : Mesh K) (mm : K) :
    goodrows sqrt m mm =
      (List.range m.pts.length).filter (fun j => laplaceD sqrt m j ≠ 0) := by
  unfold goodrows
  apply List.filter_congr
  intro j hj
  simp only [decide_eq_decide]
  rw [colsumLfac_eq_laplaceD sqrt m mm j (List.mem_range.mp hj)]

/-! ### Claim theorems -/

/-- C3: for every mesh and face, the `face_areas` accessor equals the
Euclidean magnitude of that face's `face_normals` entry and equals exactly
twice the standalone `face_area` utility on the same triangle, and the lumped
mass matrix entry `D[v]` is the incidence-weighted sum of the unhalved
`face_areas` values (equivalently, of twice the halved conventional areas)
divided by 3. -/
theorem faceAreas_unhalved_and_massMatrix (sqrt : K → K) (m : Mesh K) (f v : ℕ) :
    face_areas sqrt m f = mag3 sqrt (face_normals m f) ∧
    face_areas sqrt m f = 2 * face_area sqrt (ppts m f) ∧
    laplaceD sqrt m v = (((List.range m.polys.length).map
      (fun g => (vcount v (polyAt m g) : K) * (2 * face_area sqrt (ppts m g)))).sum) / 3 := by
  refine ⟨rfl, ?_, ?_⟩
  · unfold face_areas face_area face_normals
    ring
  · unfold laplaceD
    congr 1
    congr 1
    apply List.map_congr_left
    intro g _
    unfold face_areas face_area face_normals
    ring

theorem slotWrite_zero {vals : List K} (idxs : List ℕ) (v : ℕ)
    (h : ∀ x ∈ vals, x = 0) : slotWrite idxs vals v = 0 := by
  unfold slotWrite
  cases hg : ((idxs.zip vals).filter (fun p => p.1 = v)).getLast? with
  | none => simp [hg]
  | some p =>
    have hp : p ∈ (idxs.zip vals).filter (fun q => decide (q.1 = v)) :=
      List.mem_of_mem_getLast? hg
    have hzip : p ∈ idxs.zip vals := List.mem_of_mem_filter hp
    have : p.2 ∈ vals := (List.of_mem_zip hzip).2
    simp [hg, h p.2 this]

theorem ite_and_swap (P Q : Prop) [Decidable P] [Decidable Q] (c : K) :
    (if P ∧ Q then c else 0) = if Q ∧ P then c else 0 := by
  by_cases hP : P <;> by_cases hQ : Q <;> simp [hP, hQ]

/-- C4: the weighted adjacency matrix `W` assembled by `laplace_operator` is
exactly symmetric for every mesh: `W[i,j] = W[j,i]` for all vertex pairs. -/
theorem laplaceW_symmetric (sqrt : K → K) (m : Mesh K) (i j : ℕ) :
    laplaceW sqrt m i j = laplaceW sqrt m j i := by
  unfold laplaceW
  congr 1
  congr 1
  apply List.map_congr_left
  intro f _
  rw [ite_and_swap ((polyAt m f).2.1 = j) ((polyAt m f).2.2 = i) (cots1 sqrt m f),
    ite_and_swap ((polyAt m f).2.2 = j) ((polyAt m f).2.1 = i) (cots1 sqrt m f),
    ite_and_swap ((polyAt m f).2.2 = j) ((polyAt m f).1 = i) (cots2 sqrt m f),
    ite_and_swap ((polyAt m f).1 = j) ((polyAt m f).2.2 = i) (cots2 sqrt m f),
    ite_and_swap ((polyAt m f).1 = j) ((polyAt m f).2.1 = i) (cots3 sqrt m f),
    ite_and_swap ((polyAt m f).2.1 = j) ((polyAt m f).1 = i) (cots3 sqrt m f)]
  ring

/-- C10: for every pair of embeddings sharing one topology, a vertex whose
averaged per-face log2 area ratio (`vertRatios`) is exactly 0 is reported by
the areal distortion accessor as 1, and the value 0 never appears in the
accessor's output at any vertex. -/
theorem areal_zero_remapped_to_one (sqrt log2 : K → K) (flat ref : List (Vec3 K))
    (polys : List (ℕ × ℕ × ℕ)) (v : ℕ) :
    areal sqrt log2 flat ref polys v ≠ 0 ∧
      (vertRatios sqrt log2 flat ref polys v = 0 →
        areal sqrt log2 flat ref polys v = 1) := by
  unfold areal
  by_cases h : vertRatios sqrt log2 flat ref polys v = 0
  · simp [h]
  · simp [h]

theorem logb_two_self_div (x : ℝ) : Real.logb 2 (x / x) = 0 := by
  by_cases hx : x = 0
  · simp [hx]
  · rw [div_self hx, Real.logb_one]

/-- C7: when the flat and reference embeddings passed to `Distortion` are
identical, the areal distortion accessor returns exactly 1 at every vertex. -/
theorem areal_identity_is_one (flat : List (Vec3 ℝ)) (polys : List (ℕ × ℕ × ℕ))
    (v : ℕ) : areal Real.sqrt (Real.logb 2) flat flat polys v = 1 := by
  have hz : vertRatios Real.sqrt (Real.logb 2) flat flat polys v = 0 := by
    unfold vertRatios
    have h0 : ∀ x ∈ (List.range polys.length).map
        (tridists Real.sqrt (Real.logb 2) flat flat polys), x = (0 : ℝ) := by
      intro x hx
      rcases List.mem_map.mp hx with ⟨f, _, rfl⟩
      unfold tridists
      exact logb_two_self_div _
    rw [slotWrite_zero _ _ h0, slotWrite_zero _ _ h0, slotWrite_zero _ _ h0]
    simp
  unfold areal
  rw [if_pos hz]

/-- C5: for every mesh, source set and parameter, a vertex whose column sum in
the backward-Euler matrix `lfac` is exactly zero is excluded from the good
rows (hence from both restricted linear solves) and is reported with distance
exactly 0 by `geodesic_distance`, for any behavior of the external solvers. -/
theorem badRow_excluded_and_zero (sqrt : K → K) (m : Mesh K) (verts : List ℕ)
    (mm : K) (solveL solveN : List K → List K) (v : ℕ)
    (h : colsumLfac sqrt m mm v = 0) :
    v ∉ goodrows sqrt m mm ∧
      geodesic_distance sqrt m verts mm solveL solveN v = 0 := by
  have hv : v ∉ goodrows sqrt m mm := by
    unfold goodrows
    intro hmem
    have h2 := (List.mem_filter.mp hmem).2
    simp [h] at h2
  refine ⟨hv, ?_⟩
  unfold geodesic_distance
  simp [hv]

/-- C1 (amended): for every mesh, source set and parameter, and for any
output of the two external solvers (of the length matching the good rows,
with at least one good row), the distance field returned by
`geodesic_distance` is non-negative at every vertex, and its minimum over the
good rows is exactly zero: it is attained at some good row.  (The value at a
source vertex need not be 0 -- see the counterexample.) -/
theorem geodesic_nonneg_and_min_zero (sqrt : K → K) (m : Mesh K)
    (verts : List ℕ) (mm : K) (solveL solveN : List K → List K)
    (hne : goodrows sqrt m mm ≠ [])
    (hlen : (solveN ((goodrows sqrt m mm).map (divxF sqrt m
        (scatterRows (goodrows sqrt m mm)
          (solveL ((goodrows sqrt m mm).map (heatU0 verts))))))).length =
      (goodrows sqrt m mm).length) :
    (∀ v, 0 ≤ geodesic_distance sqrt m verts mm solveL solveN v) ∧
    (∃ v ∈ goodrows sqrt m mm,
      geodesic_distance sqrt m verts mm solveL solveN v = 0) := by
  set gr := goodrows sqrt m mm with hgr
  set gp := solveN (gr.map (divxF sqrt m
    (scatterRows gr (solveL (gr.map (heatU0 verts)))))) with hgp
  have hgd : ∀ v, geodesic_distance sqrt m verts mm solveL solveN v =
      if v ∈ gr then gp.getD (gr.indexOf v) 0 - listMin gp else 0 :=
    fun v => rfl
  have hnodup : gr.Nodup := (List.nodup_range _).filter _
  constructor
  · intro v
    rw [hgd v]
    by_cases hv : v ∈ gr
    · rw [if_pos hv]
      have hidx : gr.indexOf v < gr.length := List.indexOf_lt_length.mpr hv
      have hidx2 : gr.indexOf v < gp.length := by rw [hlen]; exact hidx
      rw [List.getD_eq_getElem gp 0 hidx2, sub_nonneg]
      exact listMin_le (List.getElem_mem hidx2)
    · rw [if_neg hv]
  · have hgpne : gp ≠ [] := by
      intro hc
      apply hne
      have : gr.length = 0 := by rw [← hlen, hc]; rfl
      exact List.eq_nil_of_length_eq_zero this
    rcases List.mem_iff_getElem.mp (listMin_mem hgpne) with ⟨i, hi, hmin⟩
    have hi2 : i < gr.length := by rw [← hlen]; exact hi
    refine ⟨gr[i], List.getElem_mem hi2, ?_⟩
    rw [hgd gr[i], if_pos (List.getElem_mem hi2),
      List.indexOf_getElem hnodup i hi2, List.getD_eq_getElem gp 0 hi, hmin,
      sub_self]

theorem laplaceD_cMesh (v : ℕ) (hv : v < 3) : laplaceD wsqrt cMesh v = 8 := by
  interval_cases v <;>
  norm_num [laplaceD, vcount, polyAt, cMesh, face_areas, face_normals, ppts,
    getPt, vsub, cross3, normSq3, wsqrt, List.getD_cons_zero,
    List.getD_cons_succ, List.range_succ]

theorem goodrows_cMesh : goodrows wsqrt cMesh 1 = [0, 1, 2] := by
  rw [goodrows_eq_filter_laplaceD]
  have h : cMesh.pts.length = 3 := rfl
  have e : List.range 3 = [0, 1, 2] := rfl
  rw [h, e]
  simp [List.filter, laplaceD_cMesh 0 (by norm_num), laplaceD_cMesh 1 (by norm_num),
    laplaceD_cMesh 2 (by norm_num)]

theorem listMin_one_zero_five : listMin ([1, 0, 5] : List ℚ) = 0 := by
  simp only [listMin, List.foldl]
  rw [min_eq_right (by norm_num : (0:ℚ) ≤ 1), min_eq_left (by norm_num : (0:ℚ) ≤ 5)]

/-- C1 counterexample: on the isoceles fixture with source-vertex set `{2}`
and solver outputs of the matching shape, `geodesic_distance` returns 5 (not
0) at the source vertex 2: the reference only shifts the solution by its
minimum over the good rows, and nothing ties that minimum to a source vertex.
(`wsqrt` agrees with the true square root everywhere the pipeline applies it
on this fixture.) -/
theorem geodesic_source_not_zero_cex :
    2 ∈ [2] ∧
    geodesic_distance wsqrt cMesh [2] 1 (fun _ => [0, 0, 1])
      (fun _ => [1, 0, 5]) 2 = 5 := by
  refine ⟨by norm_num, ?_⟩
  have hgd : geodesic_distance wsqrt cMesh [2] 1 (fun _ => [0, 0, 1])
      (fun _ => [1, 0, 5]) 2 =
      if 2 ∈ goodrows wsqrt cMesh 1 then
        ([1, 0, 5] : List ℚ).getD (List.indexOf 2 (goodrows wsqrt cMesh 1)) 0 -
          listMin ([1, 0, 5] : List ℚ)
      else 0 := rfl
  rw [hgd, goodrows_cMesh]
  have hidx : List.indexOf 2 ([0, 1, 2] : List ℕ) = 2 := rfl
  rw [if_pos (by norm_num : (2:ℕ) ∈ [0, 1, 2]), hidx, listMin_one_zero_five]
  norm_num

/-- Witness for the amended C1 theorem at the isoceles fixture (the stated
length equality is the beta-reduced form of the theorem's solver-shape
hypothesis at these concrete solvers). -/
theorem geodesic_nonneg_and_min_zero_witness :
    (goodrows wsqrt cMesh 1 ≠ [] ∧
      ([1, 0, 5] : List ℚ).length = (goodrows wsqrt cMesh 1).length) ∧
    (∀ v, 0 ≤ geodesic_distance wsqrt cMesh [2] 1 (fun _ => [0, 0, 1])
      (fun _ => [1, 0, 5]) v) ∧
    (∃ v ∈ goodrows wsqrt cMesh 1,
      geodesic_distance wsqrt cMesh [2] 1 (fun _ => [0, 0, 1])
        (fun _ => [1, 0, 5]) v = 0) := by
  have h1 : goodrows wsqrt cMesh 1 ≠ [] := by rw [goodrows_cMesh]; simp
  have h3 := geodesic_nonneg_and_min_zero wsqrt cMesh [2] 1
    (fun _ => [0, 0, 1]) (fun _ => [1, 0, 5]) h1 (by simp [goodrows_cMesh])
  exact ⟨⟨h1, by simp [goodrows_cMesh]⟩, h3.1, h3.2⟩

/-- Witness for the C5 theorem: the isolated vertex 3 of the fixture has an
exactly-zero column sum in `lfac` and is excluded and reported 0. -/
theorem badRow_excluded_and_zero_witness :
    colsumLfac wsqrt wMesh 1 3 = 0 ∧
    (3 ∉ goodrows wsqrt wMesh 1 ∧
      geodesic_distance wsqrt wMesh [0] 1 id id 3 = 0) := by
  have h : colsumLfac wsqrt wMesh 1 3 = 0 := by
    rw [colsumLfac_eq_laplaceD wsqrt wMesh 1 3 (by norm_num [wMesh])]
    norm_num [laplaceD, vcount, polyAt, wMesh, List.range_succ,
      List.getD_cons_zero, List.getD_cons_succ]
  exact ⟨h, badRow_excluded_and_zero wsqrt wMesh [0] 1 id id 3 h⟩

theorem sum_toFinset_eq_dedup (l : List ℕ) (f : ℕ → K) :
    (l.toFinset.sum f) = (l.dedup.map f).sum := by
  induction l with
  | nil => simp
  | cons a t ih =>
    by_cases h : a ∈ t
    · rw [List.toFinset_cons, Finset.insert_eq_self.mpr (List.mem_toFinset.mpr h),
        List.dedup_cons_of_mem h, ih]
    · rw [List.toFinset_cons, Finset.sum_insert (by simp [h]),
        List.dedup_cons_of_not_mem h, List.map_cons, List.sum_cons, ih]

/-- C2 (amended): for every mesh and every scalar field whose length equals
the vertex count, `smooth` returns an array whose value at each vertex `i`
with a non-empty gathered neighbor set is the sum over that set of the
Gaussian weight `gexp(-(s_j - s_i)^2 / (2*bandwidth^2))` times the neighbor's
value, divided by the NUMBER of gathered neighbors (the reference's `.mean()`
divides by the count, not by the sum of the weights), and 0 at vertices with
an empty gathered neighbor set. -/
theorem smooth_mean_of_weighted (gexp : K → K) (m : Mesh K) (scalars : List K)
    (nb : ℕ) (bw : K) (h : scalars.length = m.pts.length) (i : ℕ)
    (hi : i < m.pts.length) :
    ∃ l, smooth gexp m scalars nb bw = some l ∧ l.length = m.pts.length ∧
      l.getD i 0 =
        (if (getpts m i nb).toFinset = ∅ then 0 else
          ((getpts m i nb).toFinset.sum (fun j =>
            gexp (-(scalars.getD j 0 - scalars.getD i 0) ^ 2 / (2 * bw ^ 2)) *
              scalars.getD j 0)) / (((getpts m i nb).toFinset.card) : K)) := by
  refine ⟨(List.range scalars.length).map (smoothFunc gexp m scalars nb bw),
    ?_, ?_, ?_⟩
  · unfold smooth
    rw [if_neg (by simp [h])]
  · simp [h]
  · have hlen : i < ((List.range scalars.length).map
        (smoothFunc gexp m scalars nb bw)).length := by simp [h, hi]
    rw [List.getD_eq_getElem _ _ hlen, List.getElem_map, List.getElem_range]
    unfold smoothFunc
    by_cases hd : (getpts m i nb) = []
    · rw [if_pos (by rw [List.dedup_eq_nil]; exact hd),
        if_pos ((List.toFinset_eq_empty_iff _).mpr hd)]
    · rw [if_neg (by rw [List.dedup_eq_nil]; exact hd),
        if_neg (fun hc => hd ((List.toFinset_eq_empty_iff _).mp hc)),
        sum_toFinset_eq_dedup, List.card_toFinset]

/-- Witness for the amended C2 theorem at a rational instance. -/
theorem smooth_mean_of_weighted_witness :
    (([0, 0, 0] : List ℚ).length = cMesh.pts.length ∧ 0 < cMesh.pts.length) ∧
    (∃ l, smooth (fun _ => 1) cMesh [0, 0, 0] 2 8 = some l ∧
      l.length = cMesh.pts.length ∧
      l.getD 0 0 =
        (if (getpts cMesh 0 2).toFinset = ∅ then 0 else
          ((getpts cMesh 0 2).toFinset.sum (fun j =>
            (fun _ => (1:ℚ)) (-((([0, 0, 0]:List ℚ).getD j 0 -
                ([0, 0, 0]:List ℚ).getD 0 0)) ^ 2 / (2 * 8 ^ 2)) *
              ([0, 0, 0]:List ℚ).getD j 0)) /
            (((getpts cMesh 0 2).toFinset.card) : ℚ))) :=
  ⟨⟨rfl, by norm_num [cMesh]⟩,
    smooth_mean_of_weighted (fun _ => 1) cMesh [0, 0, 0] 2 8 rfl 0
      (by norm_num [cMesh])⟩

theorem exp_neg_two_ne_one : Real.exp (-2) ≠ 1 := by
  have h := Real.exp_lt_exp.mpr (by norm_num : (-2:ℝ) < 0)
  rw [Real.exp_zero] at h
  exact ne_of_lt h

/-- C2 counterexample: on the single-triangle fixture with scalar field
`[0, 0, 16]` and bandwidth 8, the value `smooth` computes at vertex 0 (namely
`16*exp(-2)/3`) differs from the Gaussian-weighted mean that the claim
describes (namely `16*exp(-2)/(2+exp(-2))`): the reference divides by the
neighbor count, not by the sum of the weights. -/
theorem smooth_not_weighted_mean_cex :
    ∃ l, smooth Real.exp rMesh [0, 0, 16] 2 8 = some l ∧
      l.getD 0 0 ≠ smoothClaimedMean Real.exp rMesh [0, 0, 16] 2 8 0 := by
  have hnb : (getpts rMesh 0 2).dedup = [0, 1, 2] := by decide
  have hne0 : ¬(([0, 1, 2] : List ℕ) = []) := by simp
  have hsm : smooth Real.exp rMesh [0, 0, 16] 2 8 =
      some ((List.range 3).map (smoothFunc Real.exp rMesh [0, 0, 16] 2 8)) := by
    unfold smooth
    rw [if_neg (by norm_num [rMesh])]
    rfl
  refine ⟨_, hsm, ?_⟩
  have hr : List.range 3 = [0, 1, 2] := rfl
  rw [hr]
  have hv : smoothFunc Real.exp rMesh [0, 0, 16] 2 8 0 =
      16 * Real.exp (-2) / 3 := by
    unfold smoothFunc
    rw [hnb, if_neg hne0]
    norm_num [Real.exp_zero, List.getD_cons_zero, List.getD_cons_succ]
    ring_nf
  have hc : smoothClaimedMean Real.exp rMesh [0, 0, 16] 2 8 0 =
      16 * Real.exp (-2) / (2 + Real.exp (-2)) := by
    unfold smoothClaimedMean
    rw [hnb, if_neg hne0]
    norm_num [Real.exp_zero, List.getD_cons_zero, List.getD_cons_succ]
    ring_nf
  simp only [List.map_cons, List.getD_cons_zero, hv, hc]
  intro heq
  have he : (0:ℝ) < Real.exp (-2) := Real.exp_pos _
  have h3 : (0:ℝ) < 2 + Real.exp (-2) := by linarith
  rw [div_eq_div_iff (by norm_num : (3:ℝ) ≠ 0) (ne_of_gt h3)] at heq
  have h4 : Real.exp (-2) = 1 := by nlinarith
  exact exp_neg_two_ne_one h4

/-- Witness for the C10 theorem: a vertex with an incident face whose averaged
ratio is exactly 0 is reported as 1. -/
theorem areal_zero_remapped_to_one_witness :
    vertRatios wsqrt (fun _ => 0) cMesh.pts cMesh.pts [(0, 1, 2)] 0 = 0 ∧
    areal wsqrt (fun _ => 0) cMesh.pts cMesh.pts [(0, 1, 2)] 0 = 1 := by
  have h0 : ∀ x ∈ (List.range ([((0:ℕ), (1:ℕ), (2:ℕ))].length)).map
      (tridists wsqrt (fun _ => 0) cMesh.pts cMesh.pts [(0, 1, 2)]), x = (0:ℚ) := by
    intro x hx
    rcases List.mem_map.mp hx with ⟨f, _, rfl⟩
    rfl
  have hz : vertRatios wsqrt (fun _ => 0) cMesh.pts cMesh.pts [(0, 1, 2)] 0 = 0 := by
    unfold vertRatios
    rw [slotWrite_zero _ _ h0, slotWrite_zero _ _ h0, slotWrite_zero _ _ h0]
    simp
  exact ⟨hz, (areal_zero_remapped_to_one wsqrt (fun _ => 0) cMesh.pts cMesh.pts
    [(0, 1, 2)] 0).2 hz⟩

/-- C8 counterexample: on a mesh with a vertex but no faces, fully consuming
`patches` with the unsupported granularity 2 yields a `None` for the vertex
and never raises the invalid-argument error. -/
theorem patches_no_faces_no_error_cex :
    patches eMesh none 2 = .ok [none] ∧ (2:ℚ) ≠ 1 ∧ (2:ℚ) ≠ 1/2 := by
  refine ⟨rfl, by norm_num, by norm_num⟩

theorem patchesGo_error (m : Mesh K) (aux : Option (List (Vec3 K))) (n : ℚ)
    (hn1 : n ≠ 1) (hn2 : n ≠ 1/2) :
    ∀ l : List ℕ, (∃ v ∈ l, connectedFaces m v ≠ []) →
      patchesGo m aux n l = .error () := by
  intro l
  induction l with
  | nil => rintro ⟨v, hv, _⟩; cases hv
  | cons a t ih =>
    rintro ⟨v, hv, hne⟩
    by_cases ha : connectedFaces m a = []
    · have hone : patchOne m aux n a = .ok none := by
        unfold patchOne
        rw [if_pos ha]
      have hvt : v ∈ t := by
        rcases List.mem_cons.mp hv with rfl | h
        · exact absurd ha hne
        · exact h
      simp only [patchesGo, hone, ih ⟨v, hvt, hne⟩]
    · have hone : patchOne m aux n a = .error () := by
        unfold patchOne
        rw [if_neg ha, if_neg hn1, if_neg hn2]
      simp only [patchesGo, hone]

/-- C8 (amended): for every mesh with at least one vertex having an incident
face, consuming `patches` with any granularity other than 1 and 0.5 fails
with the invalid-argument error; a mesh where no vertex has an incident face
instead yields `None` per vertex without error (see the counterexample). -/
theorem patches_invalid_granularity_errors (m : Mesh K)
    (aux : Option (List (Vec3 K))) (n : ℚ) (hn1 : n ≠ 1) (hn2 : n ≠ 1/2)
    (hface : ∃ v, v < m.pts.length ∧ connectedFaces m v ≠ []) :
    patches m aux n = .error () := by
  obtain ⟨v, hv, hne⟩ := hface
  exact patchesGo_error m aux n hn1 hn2 _ ⟨v, List.mem_range.mpr hv, hne⟩

/-- Witness for the amended C8 theorem: granularity 2 on the triangle fixture
raises the error. -/
theorem patches_invalid_granularity_errors_witness :
    ((2:ℚ) ≠ 1 ∧ (2:ℚ) ≠ 1/2 ∧
      (0 < cMesh.pts.length ∧ connectedFaces cMesh 0 ≠ [])) ∧
    patches cMesh none 2 = .error () := by
  have h0 : connectedFaces cMesh 0 ≠ [] := by decide
  exact ⟨⟨by norm_num, by norm_num, by norm_num [cMesh], h0⟩,
    patches_invalid_granularity_errors cMesh none 2 (by norm_num) (by norm_num)
      ⟨0, by norm_num [cMesh], h0⟩⟩

theorem addVerts_spec (vs : List ℕ) : ∀ vq : List ℕ × List ℕ,
    ∃ new : List ℕ,
      (vs.foldl chunkAddVert vq).1 = vq.1 ++ new ∧
      (vs.foldl chunkAddVert vq).2 = vq.2 ++ new ∧
      (∀ x ∈ new, x ∈ vs ∧ x ∉ vq.1) ∧
      (∀ x ∈ vs, x ∈ vq.1 ++ new) ∧
      (vq.1.Nodup → (vq.1 ++ new).Nodup) := by
  induction vs with
  | nil => exact fun vq => ⟨[], by simp⟩
  | cons p t ih =>
    intro vq
    rw [List.foldl_cons]
    by_cases hp : p ∈ vq.1
    · have hstep : chunkAddVert vq p = vq := by unfold chunkAddVert; rw [if_pos hp]
      rw [hstep]
      obtain ⟨new, h1, h2, h3, h4, h5⟩ := ih vq
      refine ⟨new, h1, h2, fun x hx => ⟨List.mem_cons_of_mem p (h3 x hx).1,
        (h3 x hx).2⟩, ?_, h5⟩
      intro x hx
      rcases List.mem_cons.mp hx with rfl | hxt
      · exact List.mem_append_left _ hp
      · exact h4 x hxt
    · have hstep : chunkAddVert vq p = (vq.1 ++ [p], vq.2 ++ [p]) := by
        unfold chunkAddVert; rw [if_neg hp]
      rw [hstep]
      obtain ⟨new, h1, h2, h3, h4, h5⟩ := ih (vq.1 ++ [p], vq.2 ++ [p])
      refine ⟨p :: new, ?_, ?_, ?_, ?_, ?_⟩
      · rw [h1]; simp
      · rw [h2]; simp
      · intro x hx
        rcases List.mem_cons.mp hx with rfl | hxn
        · exact ⟨List.mem_cons_self _ _, hp⟩
        · obtain ⟨hxt, hxnot⟩ := h3 x hxn
          exact ⟨List.mem_cons_of_mem p hxt, fun hc => hxnot (by simp [hc])⟩
      · intro x hx
        rcases List.mem_cons.mp hx with rfl | hxt
        · simp
        · have := h4 x hxt
          simpa using this
      · intro hnd
        have : (vq.1 ++ [p]).Nodup := by
          rw [List.nodup_append]
          exact ⟨hnd, List.nodup_singleton p, by simpa using hp⟩
        have h6 := h5 this
        simpa using h6

theorem connectedFaces_mem_lt {m : Mesh K} {v f : ℕ}
    (h : f ∈ connectedFaces m v) : f < m.polys.length :=
  List.mem_range.mp (List.mem_of_mem_filter h)

theorem polyAt_mem {m : Mesh K} {f : ℕ} (h : f < m.polys.length) :
    polyAt m f ∈ m.polys := by
  unfold polyAt
  rw [List.getD_eq_getElem _ _ h]
  exact List.getElem_mem h

theorem stepExt_rfl (m : Mesh K) (fl : List ℕ) (st : ChunkState) :
    StepExt m fl st st :=
  ⟨⟨[], by simp⟩, ⟨[], by simp⟩, fun h => h, id, id⟩

theorem stepExt_trans {m : Mesh K} {fl : List ℕ} {st st1 st2 : ChunkState}
    (h1 : StepExt m fl st st1) (h2 : StepExt m fl st1 st2) :
    StepExt m fl st st2 := by
  obtain ⟨⟨n1, hv1, hq1, hn1⟩, ⟨f1, hf1, hg1⟩, hcl1, hnd1, hfd1⟩ := h1
  obtain ⟨⟨n2, hv2, hq2, hn2⟩, ⟨f2, hf2, hg2⟩, hcl2, hnd2, hfd2⟩ := h2
  refine ⟨⟨n1 ++ n2, ?_, ?_, ?_⟩, ⟨f1 ++ f2, ?_, ?_⟩, ?_, fun h => hnd2 (hnd1 h),
    fun h => hfd2 (hfd1 h)⟩
  · rw [hv2, hv1, List.append_assoc]
  · rw [hq2, hq1, List.append_assoc]
  · intro x hx
    rcases List.mem_append.mp hx with h | h
    · exact hn1 x h
    · exact hn2 x h
  · rw [hf2, hf1, List.append_assoc]
  · intro g hg
    rcases List.mem_append.mp hg with h | h
    · exact hg1 g h
    · exact hg2 g h
  · exact fun h => hcl2 (hcl1 h)

theorem chunkStep_ext (m : Mesh K) {fl : List ℕ} {f : ℕ} (hf : f ∈ fl)
    (st : ChunkState) : StepExt m fl st (chunkStep m st f) := by
  by_cases hmem : f ∈ st.faces
  · have hst : chunkStep m st f = st := by unfold chunkStep; rw [if_pos hmem]
    rw [hst]
    exact stepExt_rfl m fl st
  · obtain ⟨new, h1, h2, h3, h4, h5⟩ :=
      addVerts_spec (faceVerts (polyAt m f)) (st.visited, st.queue)
    have hst : chunkStep m st f =
        ⟨st.faces ++ [f], st.visited ++ new, st.queue ++ new⟩ := by
      unfold chunkStep
      rw [if_neg hmem]
      simp only [ChunkState.mk.injEq]
      exact ⟨trivial, h1, h2⟩
    rw [hst]
    refine ⟨⟨new, rfl, rfl, fun x hx => ⟨f, hf, (h3 x hx).1⟩⟩,
      ⟨[f], rfl, by simpa using hf⟩, ?_, fun hnd => h5 hnd, ?_⟩
    · intro hcl f0 hf0 w hw
      rcases List.mem_append.mp hf0 with h | h
      · exact List.mem_append_left _ (hcl f0 h w hw)
      · have hfe : f0 = f := by simpa using h
        subst hfe
        exact h4 w hw
    · intro hnd
      show (st.faces ++ [f]).Nodup
      rw [List.nodup_append]
      exact ⟨hnd, List.nodup_singleton f, by simpa using hmem⟩

theorem foldl_chunkStep_ext (m : Mesh K) (gl : List ℕ) :
    ∀ (fl : List ℕ) (st : ChunkState), (∀ g ∈ gl, g ∈ fl) →
      StepExt m fl st (gl.foldl (chunkStep m) st) := by
  induction gl with
  | nil => exact fun fl st _ => stepExt_rfl m fl st
  | cons g t ih =>
    intro fl st hsub
    rw [List.foldl_cons]
    exact stepExt_trans (chunkStep_ext m (hsub g (List.mem_cons_self g t)) st)
      (ih fl _ (fun x hx => hsub x (List.mem_cons_of_mem g hx)))

theorem foldl_chunkStep_all (m : Mesh K) (gl : List ℕ) :
    ∀ st : ChunkState, ∀ g ∈ gl, g ∈ (gl.foldl (chunkStep m) st).faces := by
  induction gl with
  | nil => intro st g hg; cases hg
  | cons a t ih =>
    intro st g hg
    rw [List.foldl_cons]
    rcases List.mem_cons.mp hg with rfl | hgt
    · have hmem : g ∈ (chunkStep m st g).faces := by
        unfold chunkStep
        by_cases hmem : g ∈ st.faces
        · rw [if_pos hmem]; exact hmem
        · rw [if_neg hmem]; simp
      obtain ⟨newf, hf, -⟩ :=
        (foldl_chunkStep_ext m t t _ (fun x hx => hx)).fext
      rw [hf]
      exact List.mem_append_left _ hmem
    · exact ih _ g hgt

theorem nodup_length_le (l : List ℕ) (n : ℕ) (hnd : l.Nodup)
    (hlt : ∀ x ∈ l, x < n) : l.length ≤ n := by
  have h1 : l.toFinset.card = l.length := List.toFinset_card_of_nodup hnd
  have h2 : l.toFinset ⊆ Finset.range n := fun x hx =>
    Finset.mem_range.mpr (hlt x (List.mem_toFinset.mp hx))
  have h3 := Finset.card_le_card h2
  rw [h1, Finset.card_range] at h3
  exact h3

theorem faceVerts_lt {m : Mesh K} {g : ℕ} (hg : g < m.polys.length)
    (hwf : ∀ q ∈ m.polys, q.1 < m.pts.length ∧ q.2.1 < m.pts.length ∧
      q.2.2 < m.pts.length) :
    ∀ x ∈ faceVerts (polyAt m g), x < m.pts.length := by
  intro x hx
  have h := hwf _ (polyAt_mem hg)
  unfold faceVerts at hx
  rcases List.mem_cons.mp hx with rfl | hx2
  · exact h.1
  rcases List.mem_cons.mp hx2 with rfl | hx3
  · exact h.2.1
  rcases List.mem_cons.mp hx3 with rfl | hx4
  · exact h.2.2
  cases hx4

theorem chunkBFS_succ (m : Mesh K) (nfaces fuel : ℕ) (st : ChunkState) :
    chunkBFS m nfaces (fuel + 1) st =
      if st.faces.length < nfaces then
        match st.queue with
        | [] => st
        | node :: rest => chunkBFS m nfaces fuel
            ((connectedFaces m node).foldl (chunkStep m)
              ⟨st.faces, st.visited, rest⟩)
      else st := rfl

theorem chunkBFS_exit (m : Mesh K) (seed nfaces : ℕ)
    (hwf : ∀ q ∈ m.polys, q.1 < m.pts.length ∧ q.2.1 < m.pts.length ∧
      q.2.2 < m.pts.length) :
    ∀ (fuel : ℕ) (st : ChunkState), BFSInv m seed st →
      st.queue.length + (m.pts.length - st.visited.length) ≤ fuel →
      BFSInv m seed (chunkBFS m nfaces fuel st) ∧
        ((chunkBFS m nfaces fuel st).queue = [] ∨
          nfaces ≤ (chunkBFS m nfaces fuel st).faces.length) := by
  intro fuel
  induction fuel with
  | zero =>
    intro st hinv hmu
    have hq : st.queue = [] := by
      have h1 := Nat.le_zero.mp hmu
      have h2 : st.queue.length = 0 := by omega
      exact List.eq_nil_of_length_eq_zero h2
    exact ⟨hinv, Or.inl hq⟩
  | succ fuel ih =>
    intro st hinv hmu
    by_cases hcnt : st.faces.length < nfaces
    · cases hq : st.queue with
      | nil =>
        have hid : chunkBFS m nfaces (fuel + 1) st = st := by
          rw [chunkBFS_succ, if_pos hcnt, hq]
        rw [hid]
        exact ⟨hinv, Or.inl hq⟩
      | cons node rest =>
        have hstep : chunkBFS m nfaces (fuel + 1) st =
            chunkBFS m nfaces fuel ((connectedFaces m node).foldl (chunkStep m)
              ⟨st.faces, st.visited, rest⟩) := by
          rw [chunkBFS_succ, if_pos hcnt, hq]
        rw [hstep]
        have hext := foldl_chunkStep_ext m (connectedFaces m node)
          (connectedFaces m node) ⟨st.faces, st.visited, rest⟩ (fun x hx => hx)
        obtain ⟨new, hv, hqe, hnew⟩ := hext.vext
        obtain ⟨newf, hfe, hgf⟩ := hext.fext
        set st2 := (connectedFaces m node).foldl (chunkStep m)
          ⟨st.faces, st.visited, rest⟩ with hst2
        have hnewrange : ∀ x ∈ new, x < m.pts.length := by
          intro x hx
          obtain ⟨g, hg, hxg⟩ := hnew x hx
          exact faceVerts_lt (connectedFaces_mem_lt hg) hwf x hxg
        have hinv2 : BFSInv m seed st2 := by
          refine ⟨?_, ?_, hext.vnd hinv.vnodup, ?_, hext.fnd hinv.fnodup, ?_,
            hext.fcl hinv.fclosed, ?_⟩
          · rw [hv]
            exact List.mem_append_left _ hinv.sv
          · intro v hvq
            rw [hqe] at hvq
            rw [hv]
            rcases List.mem_append.mp hvq with h | h
            · exact List.mem_append_left _ (hinv.qv v
                (by rw [hq]; exact List.mem_cons_of_mem _ h))
            · exact List.mem_append_right _ h
          · intro v hvv
            rw [hv] at hvv
            rcases List.mem_append.mp hvv with h | h
            · exact hinv.vrange v h
            · exact hnewrange v h
          · intro f hf
            rw [hfe] at hf
            rcases List.mem_append.mp hf with h | h
            · exact hinv.frange f h
            · exact connectedFaces_mem_lt (hgf f h)
          · intro v hvv
            rw [hv] at hvv
            rcases List.mem_append.mp hvv with h | h
            · by_cases hvn : v = node
              · subst hvn
                right
                intro f hf
                exact foldl_chunkStep_all m (connectedFaces m v) _ f hf
              · rcases hinv.processed v h with hql | hdone
                · left
                  rw [hq] at hql
                  rcases List.mem_cons.mp hql with h2 | h2
                  · exact absurd h2 hvn
                  · rw [hqe]
                    exact List.mem_append_left _ h2
                · right
                  intro f hf
                  rw [hfe]
                  exact List.mem_append_left _ (hdone f hf)
            · left
              rw [hqe]
              exact List.mem_append_right _ h
        have hvislen : st.visited.length + new.length ≤ m.pts.length := by
          have h1 := nodup_length_le st2.visited m.pts.length hinv2.vnodup
            hinv2.vrange
          rw [hv, List.length_append] at h1
          exact h1
        have hmu2 : st2.queue.length +
            (m.pts.length - st2.visited.length) ≤ fuel := by
          rw [hqe, hv]
          simp only [List.length_append]
          have hql : st.queue.length = rest.length + 1 := by rw [hq]; simp
          omega
        exact ih st2 hinv2 hmu2
    · have hid : chunkBFS m nfaces (fuel + 1) st = st := by
        rw [chunkBFS_succ, if_neg hcnt]
      rw [hid]
      exact ⟨hinv, Or.inr (Nat.le_of_not_lt hcnt)⟩

theorem chunkFaces_complete (m : Mesh K) (nfaces seed : ℕ)
    (hwf : ∀ q ∈ m.polys, q.1 < m.pts.length ∧ q.2.1 < m.pts.length ∧
      q.2.2 < m.pts.length)
    (hseed : seed < m.pts.length) (hn : m.polys.length ≤ nfaces) :
    (∀ f, FaceReach m seed f → f ∈ chunkFaces m nfaces seed) ∧
      (chunkFaces m nfaces seed).Nodup ∧
      (∀ f ∈ chunkFaces m nfaces seed, f < m.polys.length) := by
  have hinv0 : BFSInv m seed ⟨[], [seed], [seed]⟩ := by
    refine ⟨List.mem_singleton.mpr rfl, fun v hv => hv, List.nodup_singleton seed,
      ?_, List.nodup_nil, ?_, ?_, fun v hv => Or.inl hv⟩
    · intro v hv
      rw [List.mem_singleton.mp hv]
      exact hseed
    · intro f hf; cases hf
    · intro f hf; cases hf
  have hmu0 : ([seed] : List ℕ).length +
      (m.pts.length - ([seed] : List ℕ).length) ≤ m.pts.length + 1 := by
    simp only [List.length_singleton]
    omega
  obtain ⟨hinv, hexit⟩ := chunkBFS_exit m seed nfaces hwf (m.pts.length + 1)
    ⟨[], [seed], [seed]⟩ hinv0 hmu0
  refine ⟨?_, hinv.fnodup, hinv.frange⟩
  intro f hfr
  rcases hexit with hq | hcnt
  · have hvis : ∀ v, ReachV m seed v →
        v ∈ (chunkBFS m nfaces (m.pts.length + 1) ⟨[], [seed], [seed]⟩).visited := by
      intro v hv
      induction hv with
      | base => exact hinv.sv
      | step h1 h2 h3 =>
        rename_i ih1
        rcases hinv.processed _ ih1 with hql | hdone
        · rw [hq] at hql; cases hql
        · exact hinv.fclosed _ (hdone _ h2) _ h3
    obtain ⟨v, hv, hfv⟩ := hfr
    rcases hinv.processed v (hvis v hv) with hql | hdone
    · rw [hq] at hql; cases hql
    · exact hdone f hfv
  · obtain ⟨v, hv, hfv⟩ := hfr
    have hlt : f < m.polys.length := connectedFaces_mem_lt hfv
    have hcard : (chunkFaces m nfaces seed).toFinset.card =
        (chunkFaces m nfaces seed).length :=
      List.toFinset_card_of_nodup hinv.fnodup
    have hsub : (chunkFaces m nfaces seed).toFinset ⊆
        Finset.range m.polys.length := fun x hx =>
      Finset.mem_range.mpr (hinv.frange x (List.mem_toFinset.mp hx))
    have heq : (chunkFaces m nfaces seed).toFinset =
        Finset.range m.polys.length := by
      apply Finset.eq_of_subset_of_card_le hsub
      rw [hcard, Finset.card_range]
      have hcf : chunkFaces m nfaces seed =
          (chunkBFS m nfaces (m.pts.length + 1) ⟨[], [seed], [seed]⟩).faces := rfl
      rw [hcf]
      omega
    have : f ∈ (chunkFaces m nfaces seed).toFinset := by
      rw [heq]
      exact Finset.mem_range.mpr hlt
    exact List.mem_toFinset.mp this

theorem lookup_append_some {l e : List (ℕ × ℕ)} {v i : ℕ}
    (h : l.lookup v = some i) : (l ++ e).lookup v = some i := by
  rw [List.lookup_append, h]
  rfl

theorem mem_of_lookup_some {l : List (ℕ × ℕ)} {v i : ℕ}
    (h : l.lookup v = some i) : (v, i) ∈ l := by
  obtain ⟨l1, l2, rfl, -⟩ := List.lookup_eq_some_iff.mp h
  exact List.mem_append_right _ (List.mem_cons_self _ _)

theorem snd_nodup_inj {l : List (ℕ × ℕ)} (hnd : (l.map Prod.snd).Nodup)
    {a b i : ℕ} (ha : (a, i) ∈ l) (hb : (b, i) ∈ l) : a = b := by
  induction l with
  | nil => cases ha
  | cons p t ih =>
    rw [List.map_cons] at hnd
    have hh := List.nodup_cons.mp hnd
    rcases List.mem_cons.mp ha with heq | hat
    · rcases List.mem_cons.mp hb with heq2 | hbt
      · rw [← heq2] at heq
        exact (Prod.mk.injEq a i b i).mp heq |>.1
      · exfalso
        apply hh.1
        have : p.2 = i := by rw [← heq]
        rw [this]
        exact List.mem_map.mpr ⟨(b, i), hbt, rfl⟩
    · rcases List.mem_cons.mp hb with heq2 | hbt
      · exfalso
        apply hh.1
        have : p.2 = i := by rw [← heq2]
        rw [this]
        exact List.mem_map.mpr ⟨(a, i), hat, rfl⟩
      · exact ih hh.2 hat hbt

theorem addPt_inv (m : Mesh K) (pm : List (ℕ × ℕ) × List (Vec3 K)) (v : ℕ)
    (hinv : BuildInv m pm.1 pm.2) :
    BuildInv m (chunkAddPt m pm v).1 (chunkAddPt m pm v).2 := by
  unfold chunkAddPt
  by_cases h : (pm.1.lookup v).isSome
  · rw [if_pos h]
    exact hinv
  · rw [if_neg h]
    refine ⟨?_, ?_, ?_⟩
    · simp [hinv.len]
    · intro p hp
      rcases List.mem_append.mp hp with hold | hnew
      · obtain ⟨h1, h2⟩ := hinv.keyval p hold
        constructor
        · simp only [List.length_append, List.length_singleton]
          omega
        · rw [List.getD_append _ _ _ _ h1]
          exact h2
      · have hpe : p = (v, pm.2.length) := by simpa using hnew
        subst hpe
        constructor
        · simp
        · have : pm.2.length - pm.2.length = 0 := by omega
          rw [List.getD_append_right _ _ _ _ (le_refl _), this]
          rfl
    · rw [List.map_append, hinv.vals]
      simp only [List.map_cons, List.map_nil]
      rw [hinv.len, List.length_append, List.length_singleton, List.range_succ]

theorem addPts_spec (m : Mesh K) (vs : List ℕ) :
    ∀ pm : List (ℕ × ℕ) × List (Vec3 K),
      ∃ ext : List (ℕ × ℕ),
        (vs.foldl (chunkAddPt m) pm).1 = pm.1 ++ ext ∧
        (BuildInv m pm.1 pm.2 →
          BuildInv m (vs.foldl (chunkAddPt m) pm).1 (vs.foldl (chunkAddPt m) pm).2) ∧
        (∀ v ∈ vs, ((vs.foldl (chunkAddPt m) pm).1.lookup v).isSome) := by
  induction vs with
  | nil => exact fun pm => ⟨[], by simp, fun h => h, by simp⟩
  | cons v t ih =>
    intro pm
    rw [List.foldl_cons]
    obtain ⟨ext, h1, h2, h3⟩ := ih (chunkAddPt m pm v)
    have hstep : ∃ e0 : List (ℕ × ℕ), (chunkAddPt m pm v).1 = pm.1 ++ e0 ∧
        ((chunkAddPt m pm v).1.lookup v).isSome := by
      unfold chunkAddPt
      by_cases h : (pm.1.lookup v).isSome
      · exact ⟨[], by rw [if_pos h]; simp, by rw [if_pos h]; exact h⟩
      · refine ⟨[(v, pm.2.length)], by rw [if_neg h], ?_⟩
        rw [if_neg h]
        show ((pm.1 ++ [(v, pm.2.length)]).lookup v).isSome
        rw [List.lookup_append]
        have hnone : pm.1.lookup v = none := Option.not_isSome_iff_eq_none.mp h
        rw [hnone, Option.none_or]
        simp [List.lookup]
    obtain ⟨e0, he0, hsome⟩ := hstep
    refine ⟨e0 ++ ext, ?_, ?_, ?_⟩
    · rw [h1, he0, List.append_assoc]
    · intro hinv
      exact h2 (addPt_inv m pm v hinv)
    · intro w hw
      rcases List.mem_cons.mp hw with rfl | hwt
      · obtain ⟨i, hi⟩ := Option.isSome_iff_exists.mp hsome
        rw [h1]
        rw [lookup_append_some hi]
        rfl
      · exact h3 w hwt

theorem buildFold_spec (m : Mesh K) (fl : List ℕ) :
    ∀ st : ChunkBuild K,
      ∃ ext : List (ℕ × ℕ),
        (fl.foldl (chunkBuildStep m) st).ptmap = st.ptmap ++ ext ∧
        (BuildInv m st.ptmap st.pts →
          BuildInv m (fl.foldl (chunkBuildStep m) st).ptmap
            (fl.foldl (chunkBuildStep m) st).pts) ∧
        (∀ f ∈ fl, ∀ w ∈ faceVerts (polyAt m f),
          (((fl.foldl (chunkBuildStep m) st).ptmap).lookup w).isSome) ∧
        (∀ x ∈ st.polys, x ∈ (fl.foldl (chunkBuildStep m) st).polys) ∧
        (∀ f ∈ fl,
          (((fl.foldl (chunkBuildStep m) st).ptmap.lookup (polyAt m f).1).getD 0,
            ((fl.foldl (chunkBuildStep m) st).ptmap.lookup (polyAt m f).2.1).getD 0,
            ((fl.foldl (chunkBuildStep m) st).ptmap.lookup (polyAt m f).2.2).getD 0) ∈
            (fl.foldl (chunkBuildStep m) st).polys) := by
  induction fl with
  | nil =>
    intro st
    exact ⟨[], by simp, fun h => h, by simp, fun x hx => hx, by simp⟩
  | cons f t ih =>
    intro st
    rw [List.foldl_cons]
    obtain ⟨extv, hv1, hv2, hv3⟩ :=
      addPts_spec m (faceVerts (polyAt m f)) (st.ptmap, st.pts)
    have hst1a : (chunkBuildStep m st f).ptmap = st.ptmap ++ extv := hv1
    have hst1b : (chunkBuildStep m st f).polys = st.polys ++
        [( ((chunkBuildStep m st f).ptmap.lookup (polyAt m f).1).getD 0,
           ((chunkBuildStep m st f).ptmap.lookup (polyAt m f).2.1).getD 0,
           ((chunkBuildStep m st f).ptmap.lookup (polyAt m f).2.2).getD 0 )] := rfl
    obtain ⟨ext2, h1, h2, h3, h4, h5⟩ := ih (chunkBuildStep m st f)
    refine ⟨extv ++ ext2, ?_, ?_, ?_, ?_, ?_⟩
    · rw [h1, hst1a, List.append_assoc]
    · intro hinv
      apply h2
      have : BuildInv m ((faceVerts (polyAt m f)).foldl (chunkAddPt m)
          (st.ptmap, st.pts)).1 ((faceVerts (polyAt m f)).foldl (chunkAddPt m)
          (st.ptmap, st.pts)).2 := hv2 hinv
      exact this
    · intro g hg w hw
      rcases List.mem_cons.mp hg with rfl | hgt
      · have hsome := hv3 w hw
        obtain ⟨i, hi⟩ := Option.isSome_iff_exists.mp hsome
        have hi2 : (chunkBuildStep m st g).ptmap.lookup w = some i := hi
        rw [h1, lookup_append_some hi2]
        rfl
      · exact h3 g hgt w hw
    · intro x hx
      apply h4
      rw [hst1b]
      exact List.mem_append_left _ hx
    · intro g hg
      rcases List.mem_cons.mp hg with rfl | hgt
      · have htrip : ∀ w ∈ faceVerts (polyAt m g),
            (t.foldl (chunkBuildStep m) (chunkBuildStep m st g)).ptmap.lookup w =
              (chunkBuildStep m st g).ptmap.lookup w := by
          intro w hw
          obtain ⟨i, hi⟩ := Option.isSome_iff_exists.mp (hv3 w hw)
          have hi2 : (chunkBuildStep m st g).ptmap.lookup w = some i := hi
          rw [h1, lookup_append_some hi2, hi2]
        rw [htrip (polyAt m g).1 (by unfold faceVerts; simp),
          htrip (polyAt m g).2.1 (by unfold faceVerts; simp),
          htrip (polyAt m g).2.2 (by unfold faceVerts; simp)]
        apply h4
        rw [hst1b]
        exact List.mem_append_right _ (List.mem_cons_self _ _)
      · exact h5 g hgt

/-- C6 (amended): for every well-formed mesh, seed vertex and target face
count at least the total face count, the sub-mesh returned by `extract_chunk`
contains -- up to the injective vertex renumbering `ρ` -- every face REACHABLE
from the seed in the vertex-face incidence graph, and every vertex incident
to a gathered face, with its original coordinates; unreachable faces and
vertices in no gathered face are dropped (see the counterexample). -/
theorem extract_chunk_reachable_complete (m : Mesh K) (nfaces seed : ℕ)
    (hwf : ∀ q ∈ m.polys, q.1 < m.pts.length ∧ q.2.1 < m.pts.length ∧
      q.2.2 < m.pts.length)
    (hseed : seed < m.pts.length) (hn : m.polys.length ≤ nfaces) :
    ∃ ρ : ℕ → ℕ,
      (∀ f, FaceReach m seed f → f ∈ chunkFaces m nfaces seed) ∧
      (∀ f ∈ chunkFaces m nfaces seed,
        (ρ (polyAt m f).1, ρ (polyAt m f).2.1, ρ (polyAt m f).2.2) ∈
          (extract_chunk m nfaces seed).2) ∧
      (∀ w, (∃ f ∈ chunkFaces m nfaces seed, w ∈ faceVerts (polyAt m f)) →
        ρ w < (extract_chunk m nfaces seed).1.length ∧
        (extract_chunk m nfaces seed).1.getD (ρ w) (0, 0, 0) = getPt m w) ∧
      (∀ v w, (∃ f ∈ chunkFaces m nfaces seed, v ∈ faceVerts (polyAt m f)) →
        (∃ f ∈ chunkFaces m nfaces seed, w ∈ faceVerts (polyAt m f)) →
        ρ v = ρ w → v = w) := by
  obtain ⟨hcomp, hnd, hrange⟩ := chunkFaces_complete m nfaces seed hwf hseed hn
  obtain ⟨ext, hext, hinv, hsome, hmono, htrip⟩ :=
    buildFold_spec m (chunkFaces m nfaces seed) (⟨[], [], []⟩ : ChunkBuild K)
  have hinv0 : BuildInv m ([] : List (ℕ × ℕ)) ([] : List (Vec3 K)) := by
    refine ⟨rfl, ?_, rfl⟩
    intro p hp
    cases hp
  have hBI := hinv hinv0
  have hpts : (extract_chunk m nfaces seed).1 =
      ((chunkFaces m nfaces seed).foldl (chunkBuildStep m)
        (⟨[], [], []⟩ : ChunkBuild K)).pts := rfl
  have hpolys : (extract_chunk m nfaces seed).2 =
      ((chunkFaces m nfaces seed).foldl (chunkBuildStep m)
        (⟨[], [], []⟩ : ChunkBuild K)).polys := rfl
  refine ⟨fun w => ((((chunkFaces m nfaces seed).foldl (chunkBuildStep m)
    (⟨[], [], []⟩ : ChunkBuild K)).ptmap.lookup w).getD 0), hcomp, ?_, ?_, ?_⟩
  · intro f hf
    beta_reduce
    rw [hpolys]
    exact htrip f hf
  · rintro w ⟨f, hf, hw⟩
    beta_reduce
    obtain ⟨i, hi⟩ := Option.isSome_iff_exists.mp (hsome f hf w hw)
    have hmem := mem_of_lookup_some hi
    obtain ⟨hlt, hval⟩ := hBI.keyval _ hmem
    rw [hpts, hi]
    simp only [Option.getD_some]
    exact ⟨hlt, hval⟩
  · rintro v w ⟨f, hf, hv⟩ ⟨g, hg, hw⟩ hvw
    beta_reduce at hvw
    obtain ⟨i, hi⟩ := Option.isSome_iff_exists.mp (hsome f hf v hv)
    obtain ⟨j, hj⟩ := Option.isSome_iff_exists.mp (hsome g hg w hw)
    rw [hi, hj] at hvw
    simp only [Option.getD_some] at hvw
    subst hvw
    have hndv : (((chunkFaces m nfaces seed).foldl (chunkBuildStep m)
        (⟨[], [], []⟩ : ChunkBuild K)).ptmap.map Prod.snd).Nodup := by
      rw [hBI.vals]
      exact List.nodup_range _
    exact snd_nodup_inj hndv (mem_of_lookup_some hi) (mem_of_lookup_some hj)

/-- C6 counterexample: on a disconnected mesh (two separate triangles and an
isolated vertex) with a target face count of 2, at least the mesh's total
face count, `extract_chunk` from seed 0 returns a sub-mesh with only 3
vertices, so it cannot contain all 7 original vertices under any injective
renumbering. -/
theorem extract_chunk_disconnected_cex :
    dMesh.polys.length ≤ 2 ∧
    ¬ containsWholeMesh dMesh (extract_chunk dMesh 2 0) := by
  refine ⟨by norm_num [dMesh], ?_⟩
  rintro ⟨ρ, hinj, hv, -⟩
  have hlen : (extract_chunk dMesh 2 0).1.length = 3 := rfl
  have h7 : dMesh.pts.length = 7 := rfl
  have hcard : ((Finset.range 7).image ρ).card = 7 := by
    rw [Finset.card_image_of_injOn, Finset.card_range]
    intro a ha b hb hab
    exact hinj a b (by rw [h7]; exact Finset.mem_range.mp ha)
      (by rw [h7]; exact Finset.mem_range.mp hb) hab
  have hsub : (Finset.range 7).image ρ ⊆ Finset.range 3 := by
    intro x hx
    rcases Finset.mem_image.mp hx with ⟨a, ha, rfl⟩
    have := (hv a (by rw [h7]; exact Finset.mem_range.mp ha)).1
    rw [hlen] at this
    exact Finset.mem_range.mpr this
  have hle := Finset.card_le_card hsub
  rw [hcard, Finset.card_range] at hle
  omega

/-- Witness for the amended C6 theorem at the triangle fixture. -/
theorem extract_chunk_reachable_complete_witness :
    ((∀ q ∈ cMesh.polys, q.1 < cMesh.pts.length ∧ q.2.1 < cMesh.pts.length ∧
        q.2.2 < cMesh.pts.length) ∧ 0 < cMesh.pts.length ∧
      cMesh.polys.length ≤ 1) ∧
    (∃ ρ : ℕ → ℕ,
      (∀ f, FaceReach cMesh 0 f → f ∈ chunkFaces cMesh 1 0) ∧
      (∀ f ∈ chunkFaces cMesh 1 0,
        (ρ (polyAt cMesh f).1, ρ (polyAt cMesh f).2.1, ρ (polyAt cMesh f).2.2) ∈
          (extract_chunk cMesh 1 0).2) ∧
      (∀ w, (∃ f ∈ chunkFaces cMesh 1 0, w ∈ faceVerts (polyAt cMesh f)) →
        ρ w < (extract_chunk cMesh 1 0).1.length ∧
        (extract_chunk cMesh 1 0).1.getD (ρ w) (0, 0, 0) = getPt cMesh w) ∧
      (∀ v w, (∃ f ∈ chunkFaces cMesh 1 0, v ∈ faceVerts (polyAt cMesh f)) →
        (∃ f ∈ chunkFaces cMesh 1 0, w ∈ faceVerts (polyAt cMesh f)) →
        ρ v = ρ w → v = w)) :=
  ⟨⟨by decide, by decide, by decide⟩,
    extract_chunk_reachable_complete cMesh 1 0 (by decide) (by decide) (by decide)⟩

section CycleTrace

variable {edges : List (ℕ × ℕ)} {k : ℕ} {v pi : ℕ → ℕ} {a0 d : ZMod k}

theorem zmod_two_ne_zero (h3 : 3 ≤ k) : (2 : ZMod k) ≠ 0 := by
  haveI : NeZero k := ⟨by omega⟩
  intro hc
  have h1 : ((2 : ℕ) : ZMod k) = 0 := by exact_mod_cast hc
  rw [ZMod.natCast_zmod_eq_zero_iff_dvd] at h1
  have := Nat.le_of_dvd (by norm_num) h1
  omega

theorem zmod_cast_ne_zero (h3 : 3 ≤ k) {t : ℕ} (h1 : 0 < t) (h2 : t < k) :
    ((t : ℕ) : ZMod k) ≠ 0 := by
  haveI : NeZero k := ⟨by omega⟩
  intro hc
  rw [ZMod.natCast_zmod_eq_zero_iff_dvd] at hc
  have := Nat.le_of_dvd h1 hc
  omega

theorem zmod_cast_inj (h3 : 3 ≤ k) {s s' : ℕ} (hs : s < k) (hs' : s' < k)
    (he : ((s : ℕ) : ZMod k) = ((s' : ℕ) : ZMod k)) : s = s' := by
  haveI : NeZero k := ⟨by omega⟩
  have h1 := congrArg ZMod.val he
  rw [ZMod.val_cast_of_lt hs, ZMod.val_cast_of_lt hs'] at h1
  exact h1

theorem dmul_cancel (hd : d = 1 ∨ d = -1) {x y : ZMod k} (he : d * x = d * y) :
    x = y := by
  rcases hd with rfl | rfl
  · simpa using he
  · simpa using he

theorem cycVert_inj (h : CycleSetup edges k v pi a0 d) {z z' : ZMod k}
    (he : cycVert k v z = cycVert k v z') : z = z' := by
  haveI : NeZero k := ⟨by have := h.k3; omega⟩
  have h1 := h.vinj z.val z'.val (ZMod.val_lt z) (ZMod.val_lt z') he
  exact ZMod.val_injective k h1

theorem stepVert_cycle (h : CycleSetup edges k v pi a0 d) :
    stepVert k v a0 d k = stepVert k v a0 d 0 := by
  unfold stepVert
  congr 1
  rw [ZMod.natCast_self]
  push_cast
  ring

theorem stepVert_ne_start (h : CycleSetup edges k v pi a0 d) {t : ℕ}
    (h1 : 0 < t) (h2 : t < k) :
    stepVert k v a0 d t ≠ stepVert k v a0 d 0 := by
  intro hc
  have h3 := cycVert_inj h hc
  have h4 := add_left_cancel h3
  have h5 := dmul_cancel h.dunit h4
  rw [Nat.cast_zero] at h5
  exact zmod_cast_ne_zero h.k3 h1 h2 h5

theorem stepVert_succ_ne (h : CycleSetup edges k v pi a0 d) (t : ℕ) :
    stepVert k v a0 d t ≠ stepVert k v a0 d (t + 1) := by
  intro hc
  have h3 := cycVert_inj h hc
  have h4 := add_left_cancel h3
  have h5 := dmul_cancel h.dunit h4
  push_cast at h5
  exact zmod_two_ne_zero h.k3 (by linear_combination (-2 : ZMod k) * h5)

theorem edge_zmod (h : CycleSetup edges k v pi a0 d) {j : ℕ} (hj : j < k) :
    edges.getD j (0, 0) =
      (cycVert k v ((pi j : ZMod k)), cycVert k v ((pi j : ZMod k) + 1)) ∨
    edges.getD j (0, 0) =
      (cycVert k v ((pi j : ZMod k) + 1), cycVert k v ((pi j : ZMod k))) := by
  haveI : NeZero k := ⟨by have := h.k3; omega⟩
  have h1 := h.edgeor j hj
  have hval : ((pi j : ZMod k)).val = pi j := ZMod.val_cast_of_lt (h.pirange j hj)
  have hval2 : (((pi j : ZMod k)) + 1).val = (pi j + 1) % k := by
    have h2 : ((pi j : ZMod k)) + 1 = ((pi j + 1 : ℕ) : ZMod k) := by push_cast; ring
    rw [h2, ZMod.val_natCast]
  unfold cycVert
  rw [hval, hval2]
  exact h1

theorem pz_inj (h : CycleSetup edges k v pi a0 d) {i j : ℕ} (hi : i < k)
    (hj : j < k) (he : (pi i : ZMod k) = (pi j : ZMod k)) : i = j := by
  apply h.piinj i j hi hj
  exact zmod_cast_inj h.k3 (h.pirange i hi) (h.pirange j hj) he

theorem pz_surj (h : CycleSetup edges k v pi a0 d) (y : ZMod k) :
    ∃ j, j < k ∧ (pi j : ZMod k) = y := by
  haveI : NeZero k := ⟨by have := h.k3; omega⟩
  have hcard : ((Finset.range k).image pi).card = k := by
    rw [Finset.card_image_of_injOn, Finset.card_range]
    intro a ha b hb hab
    exact h.piinj a b (Finset.mem_range.mp ha) (Finset.mem_range.mp hb) hab
  have hsub : (Finset.range k).image pi ⊆ Finset.range k := by
    intro x hx
    rcases Finset.mem_image.mp hx with ⟨a, ha, rfl⟩
    exact Finset.mem_range.mpr (h.pirange a (Finset.mem_range.mp ha))
  have heq : (Finset.range k).image pi = Finset.range k :=
    Finset.eq_of_subset_of_card_le hsub (by rw [hcard, Finset.card_range])
  have hy : y.val ∈ (Finset.range k).image pi := by
    rw [heq]
    exact Finset.mem_range.mpr (ZMod.val_lt y)
  rcases Finset.mem_image.mp hy with ⟨j, hj, hpij⟩
  refine ⟨j, Finset.mem_range.mp hj, ?_⟩
  apply ZMod.val_injective k
  rw [ZMod.val_cast_of_lt (h.pirange j (Finset.mem_range.mp hj)), hpij]

theorem stepEdge_pair (h : CycleSetup edges k v pi a0 d) (s : ℕ) :
    (cycVert k v (stepEdge k a0 d s) = stepVert k v a0 d s ∧
     cycVert k v (stepEdge k a0 d s + 1) = stepVert k v a0 d (s + 1)) ∨
    (cycVert k v (stepEdge k a0 d s) = stepVert k v a0 d (s + 1) ∧
     cycVert k v (stepEdge k a0 d s + 1) = stepVert k v a0 d s) := by
  have hne : (-1 : ZMod k) ≠ 1 := by
    intro hc
    apply zmod_two_ne_zero h.k3
    have h1 := congrArg (fun z => z + 1) hc
    simp only [neg_add_cancel] at h1
    rw [show (2 : ZMod k) = 1 + 1 by ring, ← h1]
  rcases h.dunit with rfl | rfl
  · left
    unfold stepEdge stepVert
    rw [if_pos rfl]
    constructor
    · congr 1
      ring
    · congr 1
      push_cast
      ring
  · right
    unfold stepEdge stepVert
    rw [if_neg hne]
    constructor
    · congr 1
      push_cast
      ring
    · congr 1
      push_cast
      ring

theorem stepEdge_inj (h : CycleSetup edges k v pi a0 d) {s s' : ℕ}
    (hs : s < k) (hs' : s' < k)
    (he : stepEdge k a0 d s = stepEdge k a0 d s') : s = s' := by
  have hk0 : 0 < k := by have := h.k3; omega
  rcases h.dunit with rfl | rfl
  · unfold stepEdge at he
    rw [if_pos rfl, if_pos rfl] at he
    have h1 : ((s : ℕ) : ZMod k) = ((s' : ℕ) : ZMod k) := by
      have := add_left_cancel he
      exact_mod_cast this
    exact zmod_cast_inj h.k3 hs hs' h1
  · have hne : (-1 : ZMod k) ≠ 1 := by
      intro hc
      apply zmod_two_ne_zero h.k3
      have h1 := congrArg (fun z => z + 1) hc
      simp only [neg_add_cancel] at h1
      rw [show (2 : ZMod k) = 1 + 1 by ring, ← h1]
    unfold stepEdge at he
    rw [if_neg hne, if_neg hne] at he
    have h1 : ((s + 1 : ℕ) : ZMod k) = ((s' + 1 : ℕ) : ZMod k) := by
      have h2 := add_left_cancel he
      have h3 := dmul_cancel (Or.inr rfl) h2
      push_cast at h3 ⊢
      linear_combination h3
    haveI : NeZero k := ⟨by omega⟩
    have h4 := congrArg ZMod.val h1
    rw [ZMod.val_natCast, ZMod.val_natCast] at h4
    by_cases hc1 : s + 1 < k
    · by_cases hc2 : s' + 1 < k
      · rw [Nat.mod_eq_of_lt hc1, Nat.mod_eq_of_lt hc2] at h4
        omega
      · have hs'k : s' + 1 = k := by omega
        rw [Nat.mod_eq_of_lt hc1, hs'k, Nat.mod_self] at h4
        omega
    · have hsk : s + 1 = k := by omega
      by_cases hc2 : s' + 1 < k
      · rw [hsk, Nat.mod_self, Nat.mod_eq_of_lt hc2] at h4
        omega
      · omega

theorem map_range_getLastD (f : ℕ → ℕ) (n : ℕ) :
    ((List.range (n + 1)).map f).getLastD 0 = f n := by
  rw [List.range_succ, List.map_append]
  exact List.getLastD_concat 0 (f n) _

theorem map_range_headD (f : ℕ → ℕ) (n : ℕ) :
    ((List.range (n + 1)).map f).headD 0 = f 0 := by
  rw [List.range_succ_eq_map]
  rfl

theorem map_range_concat (f : ℕ → ℕ) (n : ℕ) :
    (List.range (n + 1)).map f = (List.range n).map f ++ [f n] := by
  rw [List.range_succ, List.map_append]
  rfl

theorem filter_eq_singleton {l : List ℕ} {P : ℕ → Bool} {x : ℕ}
    (hnd : l.Nodup) (hx : x ∈ l) (hP : P x = true)
    (huniq : ∀ y ∈ l, P y = true → y = x) : l.filter P = [x] := by
  induction l with
  | nil => cases hx
  | cons a t ih =>
    have hnd2 := List.nodup_cons.mp hnd
    rcases List.mem_cons.mp hx with rfl | hxt
    · rw [List.filter_cons_of_pos hP]
      have ht : t.filter P = [] := by
        rw [List.filter_eq_nil_iff]
        intro y hy hPy
        have hya := huniq y (List.mem_cons_of_mem _ hy) (by simpa using hPy)
        rw [hya] at hy
        exact hnd2.1 hy
      rw [ht]
    · have hax : a ≠ x := by
        intro hc
        rw [hc] at hnd2
        exact hnd2.1 hxt
      have hPa : ¬ (P a = true) := fun hc => hax (huniq a (List.mem_cons_self a t) hc)
      rw [List.filter_cons_of_neg (by simpa using hPa)]
      exact ih hnd2.2 hxt (fun y hy hPy => huniq y (List.mem_cons_of_mem _ hy) hPy)

theorem mem_edgeIdx {edges : List (ℕ × ℕ)} {i x : ℕ} :
    i ∈ edgeIdx edges x ↔ i < edges.length ∧
      ((edges.getD i (0, 0)).1 = x ∨ (edges.getD i (0, 0)).2 = x) := by
  unfold edgeIdx
  rw [List.mem_filter, List.mem_range]
  simp

theorem edgeIdx_nodup (edges : List (ℕ × ℕ)) (x : ℕ) :
    (edgeIdx edges x).Nodup :=
  (List.nodup_range _).filter _

theorem stepEdge_touch_self (h : CycleSetup edges k v pi a0 d) (t : ℕ) :
    stepEdge k a0 d t = a0 + d * (t : ZMod k) ∨
    stepEdge k a0 d t + 1 = a0 + d * (t : ZMod k) := by
  have hne : (-1 : ZMod k) ≠ 1 := by
    intro hc
    apply zmod_two_ne_zero h.k3
    linear_combination - hc
  rcases h.dunit with rfl | rfl
  · left
    unfold stepEdge
    rw [if_pos rfl]
    ring
  · right
    unfold stepEdge
    rw [if_neg hne]
    ring

theorem stepEdge_touch_next (h : CycleSetup edges k v pi a0 d) (t : ℕ) :
    stepEdge k a0 d t = a0 + d * ((t + 1 : ℕ) : ZMod k) ∨
    stepEdge k a0 d t + 1 = a0 + d * ((t + 1 : ℕ) : ZMod k) := by
  have hne : (-1 : ZMod k) ≠ 1 := by
    intro hc
    apply zmod_two_ne_zero h.k3
    linear_combination - hc
  rcases h.dunit with rfl | rfl
  · right
    unfold stepEdge
    rw [if_pos rfl]
    push_cast
    ring
  · left
    unfold stepEdge
    rw [if_neg hne]
    push_cast
    ring

theorem touch_stepEdge (h : CycleSetup edges k v pi a0 d) (u : ℕ) {x : ZMod k}
    (hx : x = a0 + d * ((u + 1 : ℕ) : ZMod k) ∨
          x + 1 = a0 + d * ((u + 1 : ℕ) : ZMod k)) :
    x = stepEdge k a0 d (u + 1) ∨ x = stepEdge k a0 d u := by
  have hne : (-1 : ZMod k) ≠ 1 := by
    intro hc
    apply zmod_two_ne_zero h.k3
    linear_combination - hc
  rcases h.dunit with rfl | rfl
  · unfold stepEdge
    rw [if_pos rfl, if_pos rfl]
    rcases hx with hx | hx
    · left
      push_cast at hx ⊢
      linear_combination hx
    · right
      push_cast at hx ⊢
      linear_combination hx
  · unfold stepEdge
    rw [if_neg hne, if_neg hne]
    rcases hx with hx | hx
    · right
      push_cast at hx ⊢
      linear_combination hx
    · left
      push_cast at hx ⊢
      linear_combination hx

theorem stepEdge_surj (h : CycleSetup edges k v pi a0 d) (z : ZMod k) :
    ∃ s, s < k ∧ stepEdge k a0 d s = z := by
  haveI : NeZero k := ⟨by have := h.k3; omega⟩
  have hinj : Function.Injective (fun s : Fin k => stepEdge k a0 d s.val) := by
    intro a b hab
    exact Fin.ext (stepEdge_inj h a.isLt b.isLt hab)
  have hcard : Fintype.card (Fin k) = Fintype.card (ZMod k) := by
    rw [Fintype.card_fin, ZMod.card]
  have hbij := (Fintype.bijective_iff_injective_and_card _).mpr ⟨hinj, hcard⟩
  rcases hbij.2 z with ⟨s, hs⟩
  exact ⟨s.val, s.isLt, hs⟩

theorem isSingleCycle_setup {edges : List (ℕ × ℕ)} {k : ℕ} {v pi : ℕ → ℕ}
    (h : IsSingleCycle edges k v pi) :
    ∃ a0 d : ZMod k, CycleSetup edges k v pi a0 d := by
  obtain ⟨hk3, hlen, hvinj, hpir, hpinj, hor⟩ := h
  haveI : NeZero k := ⟨by omega⟩
  have h0k : 0 < k := by omega
  rcases hor 0 h0k with he | he
  · refine ⟨((pi 0 : ℕ) : ZMod k), 1, hk3, hlen, hvinj, hpir, hpinj, hor,
      Or.inl rfl, ?_⟩
    have e1 : ((pi 0 : ℕ) : ZMod k) + 1 * ((0 : ℕ) : ZMod k) =
        ((pi 0 : ℕ) : ZMod k) := by push_cast; ring
    have e2 : ((pi 0 : ℕ) : ZMod k) + 1 * ((1 : ℕ) : ZMod k) =
        ((pi 0 + 1 : ℕ) : ZMod k) := by push_cast; ring
    unfold stepVert cycVert
    rw [e1, e2, ZMod.val_cast_of_lt (hpir 0 h0k), ZMod.val_natCast]
    exact he
  · refine ⟨((pi 0 : ℕ) : ZMod k) + 1, -1, hk3, hlen, hvinj, hpir, hpinj, hor,
      Or.inr rfl, ?_⟩
    have e1 : (((pi 0 : ℕ) : ZMod k) + 1) + (-1) * ((0 : ℕ) : ZMod k) =
        ((pi 0 + 1 : ℕ) : ZMod k) := by push_cast; ring
    have e2 : (((pi 0 : ℕ) : ZMod k) + 1) + (-1) * ((1 : ℕ) : ZMod k) =
        ((pi 0 : ℕ) : ZMod k) := by push_cast; ring
    unfold stepVert cycVert
    rw [e1, e2, ZMod.val_cast_of_lt (hpir 0 h0k), ZMod.val_natCast]
    exact he

theorem traceOne_succ (edges : List (ℕ × ℕ)) (fuel : ℕ) (eset stack poly : List ℕ) :
    traceOne edges (fuel + 1) eset stack poly =
      if poly.getLastD 0 = poly.headD 0 ∧ poly.length ≠ 1 then some (poly, eset)
      else
        match (edgeIdx edges (poly.getLastD 0)).filter (fun i => i ∉ stack) with
        | [] => none
        | nxt :: _ =>
          if nxt ∈ eset then
            let e := edges.getD nxt (0, 0)
            if e.1 = poly.getLastD 0 then
              traceOne edges fuel (eset.erase nxt) (stack ++ [nxt]) (poly ++ [e.2])
            else if e.2 = poly.getLastD 0 then
              traceOne edges fuel (eset.erase nxt) (stack ++ [nxt]) (poly ++ [e.1])
            else none
          else none := rfl

theorem traceOne_step_eq (edges : List (ℕ × ℕ)) (fuel : ℕ) (eset stack poly : List ℕ)
    (jt : ℕ)
    (hcond : ¬(poly.getLastD 0 = poly.headD 0 ∧ poly.length ≠ 1))
    (hfilter : (edgeIdx edges (poly.getLastD 0)).filter (fun i => i ∉ stack) = [jt])
    (hmem : jt ∈ eset) :
    traceOne edges (fuel + 1) eset stack poly =
      (if (edges.getD jt (0, 0)).1 = poly.getLastD 0 then
        traceOne edges fuel (eset.erase jt) (stack ++ [jt])
          (poly ++ [(edges.getD jt (0, 0)).2])
      else if (edges.getD jt (0, 0)).2 = poly.getLastD 0 then
        traceOne edges fuel (eset.erase jt) (stack ++ [jt])
          (poly ++ [(edges.getD jt (0, 0)).1])
      else none) := by
  rw [traceOne_succ, if_neg hcond, hfilter]
  simp only [if_pos hmem]

theorem traceOne_cycle_step (h : CycleSetup edges k v pi a0 d) {t : ℕ}
    (ht1 : 1 ≤ t) (htk : t < k) (fuel : ℕ) {eset stack : List ℕ}
    (hnd : eset.Nodup)
    (hstack : ∀ j, j ∈ stack ↔ j < k ∧
      ∃ s, s < t ∧ (pi j : ZMod k) = stepEdge k a0 d s)
    (heset : ∀ j, j ∈ eset ↔ j < k ∧ j ∉ stack) :
    ∃ jt,
      traceOne edges (fuel + 1) eset stack
          ((List.range (t + 1)).map (stepVert k v a0 d)) =
        traceOne edges fuel (eset.erase jt) (stack ++ [jt])
          ((List.range (t + 2)).map (stepVert k v a0 d)) ∧
      (eset.erase jt).Nodup ∧
      (∀ j, j ∈ stack ++ [jt] ↔ j < k ∧
        ∃ s, s < t + 1 ∧ (pi j : ZMod k) = stepEdge k a0 d s) ∧
      (∀ j, j ∈ eset.erase jt ↔ j < k ∧ j ∉ stack ++ [jt]) := by
  obtain ⟨jt, hjtk, hjt⟩ := pz_surj h (stepEdge k a0 d t)
  have hjtstack : jt ∉ stack := by
    intro hc
    rcases (hstack jt).mp hc with ⟨_, s, hst, hseq⟩
    have hts := stepEdge_inj h htk (lt_trans hst htk) (hjt.symm.trans hseq)
    omega
  have hjteset : jt ∈ eset := (heset jt).mpr ⟨hjtk, hjtstack⟩
  have hlast : ((List.range (t + 1)).map (stepVert k v a0 d)).getLastD 0 =
      stepVert k v a0 d t := map_range_getLastD _ t
  have hhead : ((List.range (t + 1)).map (stepVert k v a0 d)).headD 0 =
      stepVert k v a0 d 0 := map_range_headD _ t
  have hcond : ¬(((List.range (t + 1)).map (stepVert k v a0 d)).getLastD 0 =
      ((List.range (t + 1)).map (stepVert k v a0 d)).headD 0 ∧
      ((List.range (t + 1)).map (stepVert k v a0 d)).length ≠ 1) := by
    rw [hlast, hhead]
    rintro ⟨hc, -⟩
    exact stepVert_ne_start h ht1 htk hc
  have hfilter : ((edgeIdx edges
      (((List.range (t + 1)).map (stepVert k v a0 d)).getLastD 0)).filter
      (fun i => i ∉ stack)) = [jt] := by
    rw [hlast]
    apply filter_eq_singleton (edgeIdx_nodup _ _)
    · rw [mem_edgeIdx]
      refine ⟨by rw [h.len]; exact hjtk, ?_⟩
      rcases edge_zmod h hjtk with hE | hE <;> rw [hjt] at hE <;> rw [hE] <;>
        rcases stepEdge_pair h t with ⟨h1, h2⟩ | ⟨h1, h2⟩
      · exact Or.inl h1
      · exact Or.inr h2
      · exact Or.inr h1
      · exact Or.inl h2
    · simpa using hjtstack
    · intro y hy hPy
      rw [mem_edgeIdx] at hy
      have hyk : y < k := by rw [h.len] at hy; exact hy.1
      have hystack : y ∉ stack := by simpa using hPy
      have htouch : cycVert k v ((pi y : ZMod k)) = stepVert k v a0 d t ∨
          cycVert k v ((pi y : ZMod k) + 1) = stepVert k v a0 d t := by
        rcases edge_zmod h hyk with hE | hE <;> rw [hE] at hy <;>
          rcases hy.2 with h2 | h2
        · exact Or.inl h2
        · exact Or.inr h2
        · exact Or.inr h2
        · exact Or.inl h2
      have hidx : (pi y : ZMod k) = a0 + d * ((t : ℕ) : ZMod k) ∨
          (pi y : ZMod k) + 1 = a0 + d * ((t : ℕ) : ZMod k) := by
        unfold stepVert at htouch
        rcases htouch with h2 | h2
        · exact Or.inl (cycVert_inj h h2)
        · exact Or.inr (cycVert_inj h h2)
      obtain ⟨u, rfl⟩ : ∃ u, t = u + 1 := ⟨t - 1, by omega⟩
      rcases touch_stepEdge h u hidx with hPy2 | hPy2
      · exact pz_inj h hyk hjtk (hPy2.trans hjt.symm)
      · exfalso
        exact hystack ((hstack y).mpr ⟨hyk, u, by omega, hPy2⟩)
  refine ⟨jt, ?_, hnd.erase jt, ?_, ?_⟩
  · rw [traceOne_step_eq edges fuel eset stack _ jt hcond hfilter hjteset]
    rcases edge_zmod h hjtk with hE | hE <;> rw [hjt] at hE <;>
      rcases stepEdge_pair h t with ⟨h1, h2⟩ | ⟨h1, h2⟩
    · have hfst : (edges.getD jt (0, 0)).1 = stepVert k v a0 d t := by
        rw [hE]; exact h1
      have hsnd : (edges.getD jt (0, 0)).2 = stepVert k v a0 d (t + 1) := by
        rw [hE]; exact h2
      rw [hlast, if_pos hfst, hsnd, ← map_range_concat]
    · have hfst : (edges.getD jt (0, 0)).1 = stepVert k v a0 d (t + 1) := by
        rw [hE]; exact h1
      have hsnd : (edges.getD jt (0, 0)).2 = stepVert k v a0 d t := by
        rw [hE]; exact h2
      have hne1 : ¬((edges.getD jt (0, 0)).1 =
          ((List.range (t + 1)).map (stepVert k v a0 d)).getLastD 0) := by
        rw [hlast, hfst]
        exact fun hc => stepVert_succ_ne h t hc.symm
      rw [if_neg hne1, hlast, if_pos hsnd, hfst, ← map_range_concat]
    · have hfst : (edges.getD jt (0, 0)).1 = stepVert k v a0 d (t + 1) := by
        rw [hE]; exact h2
      have hsnd : (edges.getD jt (0, 0)).2 = stepVert k v a0 d t := by
        rw [hE]; exact h1
      have hne1 : ¬((edges.getD jt (0, 0)).1 =
          ((List.range (t + 1)).map (stepVert k v a0 d)).getLastD 0) := by
        rw [hlast, hfst]
        exact fun hc => stepVert_succ_ne h t hc.symm
      rw [if_neg hne1, hlast, if_pos hsnd, hfst, ← map_range_concat]
    · have hfst : (edges.getD jt (0, 0)).1 = stepVert k v a0 d t := by
        rw [hE]; exact h2
      have hsnd : (edges.getD jt (0, 0)).2 = stepVert k v a0 d (t + 1) := by
        rw [hE]; exact h1
      rw [hlast, if_pos hfst, hsnd, ← map_range_concat]
  · intro j
    rw [List.mem_append, List.mem_singleton]
    constructor
    · rintro (hj | rfl)
      · rcases (hstack j).mp hj with ⟨hjk, s, hst, hseq⟩
        exact ⟨hjk, s, by omega, hseq⟩
      · exact ⟨hjtk, t, by omega, hjt⟩
    · rintro ⟨hjk, s, hst, hseq⟩
      by_cases hs : s < t
      · exact Or.inl ((hstack j).mpr ⟨hjk, s, hs, hseq⟩)
      · have hst2 : s = t := by omega
        subst hst2
        exact Or.inr (pz_inj h hjk hjtk (hseq.trans hjt.symm))
  · intro j
    rw [List.Nodup.mem_erase_iff hnd, heset j, List.mem_append, List.mem_singleton]
    constructor
    · rintro ⟨hne, hjk, hjs⟩
      exact ⟨hjk, fun hc => hc.elim hjs hne⟩
    · rintro ⟨hjk, hn⟩
      exact ⟨fun hc => hn (Or.inr hc), hjk, fun hc => hn (Or.inl hc)⟩

theorem traceOne_cycle_run (h : CycleSetup edges k v pi a0 d) :
    ∀ r t : ℕ, 1 ≤ t → t + r + 1 = k →
    ∀ fuel : ℕ, r + 2 ≤ fuel →
    ∀ eset stack : List ℕ,
    eset.Nodup →
    (∀ j, j ∈ stack ↔ j < k ∧ ∃ s, s < t ∧ (pi j : ZMod k) = stepEdge k a0 d s) →
    (∀ j, j ∈ eset ↔ j < k ∧ j ∉ stack) →
    traceOne edges fuel eset stack ((List.range (t + 1)).map (stepVert k v a0 d)) =
      some ((List.range (k + 1)).map (stepVert k v a0 d), []) := by
  intro r
  induction r with
  | zero =>
    intro t ht1 htk fuel hfuel eset stack hnd hstack heset
    obtain ⟨f, rfl⟩ : ∃ f, fuel = f + 2 := ⟨fuel - 2, by omega⟩
    have htk' : t < k := by omega
    obtain ⟨jt, hstep, hnd2, hstack, heset2⟩ :=
      traceOne_cycle_step h ht1 htk' (f + 1) hnd hstack heset
    rw [hstep]
    have ht2 : t + 2 = k + 1 := by omega
    rw [ht2]
    have hc1 : ((List.range (k + 1)).map (stepVert k v a0 d)).getLastD 0 =
        ((List.range (k + 1)).map (stepVert k v a0 d)).headD 0 := by
      rw [map_range_getLastD, map_range_headD]
      exact stepVert_cycle h
    have hc2 : ((List.range (k + 1)).map (stepVert k v a0 d)).length ≠ 1 := by
      have := h.k3
      simp only [List.length_map, List.length_range]
      omega
    rw [traceOne_succ, if_pos ⟨hc1, hc2⟩]
    have heq : eset.erase jt = [] := by
      rw [List.eq_nil_iff_forall_not_mem]
      intro j hj
      rcases (heset2 j).mp hj with ⟨hjk, hjs⟩
      rcases stepEdge_surj h ((pi j : ℕ) : ZMod k) with ⟨s, hsk, hse⟩
      exact hjs ((hstack j).mpr ⟨hjk, s, by omega, hse.symm⟩)
    rw [heq]
  | succ r ih =>
    intro t ht1 htk fuel hfuel eset stack hnd hstack heset
    obtain ⟨f, rfl⟩ : ∃ f, fuel = f + 1 := ⟨fuel - 1, by omega⟩
    have htk' : t < k := by omega
    obtain ⟨jt, hstep, hnd2, hstack, heset2⟩ :=
      traceOne_cycle_step h ht1 htk' f hnd hstack heset
    rw [hstep]
    exact ih (t + 1) (by omega) (by omega) f (by omega) _ _ hnd2 hstack heset2

theorem pz_zero (h : CycleSetup edges k v pi a0 d) :
    (pi 0 : ZMod k) = stepEdge k a0 d 0 := by
  have hk0 : 0 < k := by have := h.k3; omega
  have hne : (-1 : ZMod k) ≠ 1 := by
    intro hc
    apply zmod_two_ne_zero h.k3
    linear_combination - hc
  rcases edge_zmod h hk0 with hE | hE <;>
    have hc := (h.e0.symm.trans hE) <;>
    rw [Prod.mk.injEq] at hc <;>
    [skip; skip]
  · have hA := cycVert_inj h hc.1.symm
    have hB := cycVert_inj h hc.2.symm
    rcases h.dunit with rfl | rfl
    · unfold stepEdge
      rw [if_pos rfl]
      push_cast at hA ⊢
      linear_combination hA
    · exfalso
      apply zmod_two_ne_zero h.k3
      push_cast at hA hB
      linear_combination hB - hA
  · have hA := cycVert_inj h hc.1.symm
    have hB := cycVert_inj h hc.2.symm
    rcases h.dunit with rfl | rfl
    · exfalso
      apply zmod_two_ne_zero h.k3
      push_cast at hA hB
      linear_combination hA - hB
    · unfold stepEdge
      rw [if_neg hne]
      push_cast at hB ⊢
      linear_combination hB

theorem tracePolysGo_cons (edges : List (ℕ × ℕ)) (fuel : ℕ) (eidx : ℕ) (rest : List ℕ) :
    tracePolysGo edges (fuel + 1) (eidx :: rest) =
      match traceOne edges (edges.length + 1) rest [eidx]
          [(edges.getD eidx (0, 0)).1, (edges.getD eidx (0, 0)).2] with
      | none => none
      | some (poly, eset2) =>
        match tracePolysGo edges fuel eset2 with
        | none => none
        | some ps => some (poly :: ps) := rfl

theorem tracePolysGo_nil (edges : List (ℕ × ℕ)) (fuel : ℕ) :
    tracePolysGo edges (fuel + 1) [] = some [] := rfl

theorem undirEdge_swap (a b : ℕ) : undirEdge (a, b) = undirEdge (b, a) := by
  unfold undirEdge
  simp [min_comm, max_comm]

theorem consecPairs_map_range (f : ℕ → ℕ) (n : ℕ) :
    consecPairs ((List.range (n + 1)).map f) =
      (List.range n).map (fun s => (f s, f (s + 1))) := by
  unfold consecPairs
  apply List.ext_getElem
  · simp [List.length_zip]
  · intro i h1 h2
    simp only [List.length_map, List.length_range] at h2
    rw [List.getElem_zip]
    rw [List.getElem_map, List.getElem_range]
    rw [List.getElem_tail]
    rw [List.getElem_map, List.getElem_map, List.getElem_range, List.getElem_range]

theorem map_eq_range_map (l : List (ℕ × ℕ)) (f : ℕ × ℕ → ℕ × ℕ) :
    l.map f = (List.range l.length).map (fun i => f (l.getD i (0, 0))) := by
  apply List.ext_getElem
  · simp
  · intro i h1 h2
    rw [List.getElem_map, List.getElem_map, List.getElem_range,
      List.getD_eq_getElem l (0, 0) (by simpa using h1)]

theorem cycle_perm (hs : CycleSetup edges k v pi a0 d) :
    ((List.range k).map (fun s => stepEdge k a0 d s)).Perm
      ((List.range k).map (fun j => ((pi j : ℕ) : ZMod k))) := by
  haveI : NeZero k := ⟨by have := hs.k3; omega⟩
  have hnd1 : ((List.range k).map (fun s => stepEdge k a0 d s)).Nodup := by
    apply List.Nodup.map_on ?_ (List.nodup_range k)
    intro x hx y hy hxy
    exact stepEdge_inj hs (List.mem_range.mp hx) (List.mem_range.mp hy) hxy
  have hnd2 : ((List.range k).map (fun j => ((pi j : ℕ) : ZMod k))).Nodup := by
    apply List.Nodup.map_on ?_ (List.nodup_range k)
    intro x hx y hy hxy
    exact pz_inj hs (List.mem_range.mp hx) (List.mem_range.mp hy) hxy
  apply List.perm_of_nodup_nodup_toFinset_eq hnd1 hnd2
  have hc1 : ((List.range k).map (fun s => stepEdge k a0 d s)).toFinset =
      Finset.univ := by
    apply Finset.eq_univ_of_card
    rw [List.toFinset_card_of_nodup hnd1, List.length_map, List.length_range,
      ZMod.card]
  have hc2 : ((List.range k).map (fun j => ((pi j : ℕ) : ZMod k))).toFinset =
      Finset.univ := by
    apply Finset.eq_univ_of_card
    rw [List.toFinset_card_of_nodup hnd2, List.length_map, List.length_range,
      ZMod.card]
  rw [hc1, hc2]

/-- C9: on an edge list forming a single closed cycle of undirected edges
(`IsSingleCycle`), `trace_poly` yields exactly one polygon; that polygon has
`k + 1` entries, its first and last vertex coincide, and its consecutive
vertex pairs, viewed as undirected edges, are a permutation of the input
edge list viewed as undirected edges (each input edge is visited exactly
once). -/
theorem trace_poly_single_cycle {edges : List (ℕ × ℕ)} {k : ℕ}
    {v pi : ℕ → ℕ} (h : IsSingleCycle edges k v pi) :
    ∃ p, trace_poly edges = some [p] ∧ p.length = k + 1 ∧
      p.headD 0 = p.getLastD 0 ∧
      ((consecPairs p).map undirEdge).Perm (edges.map undirEdge) := by
  obtain ⟨a0, d, hs⟩ := isSingleCycle_setup h
  have hk3 := hs.k3
  have hk0 : 0 < k := by omega
  refine ⟨(List.range (k + 1)).map (stepVert k v a0 d), ?_, ?_, ?_, ?_⟩
  · unfold trace_poly
    rw [hs.len]
    have hr : List.range k = 0 :: (List.range (k - 1)).map Nat.succ := by
      conv_lhs => rw [show k = (k - 1) + 1 from by omega]
      rw [List.range_succ_eq_map]
    rw [hr, tracePolysGo_cons, hs.len]
    have hpoly0 : [(edges.getD 0 (0, 0)).1, (edges.getD 0 (0, 0)).2] =
        (List.range (1 + 1)).map (stepVert k v a0 d) := by
      rw [hs.e0]
      rfl
    rw [hpoly0]
    have hnodup : ((List.range (k - 1)).map Nat.succ).Nodup :=
      (List.nodup_range _).map Nat.succ_injective
    have hstack0 : ∀ j, j ∈ [0] ↔ j < k ∧
        ∃ s, s < 1 ∧ (pi j : ZMod k) = stepEdge k a0 d s := by
      intro j
      rw [List.mem_singleton]
      constructor
      · rintro rfl
        exact ⟨hk0, 0, by omega, pz_zero hs⟩
      · rintro ⟨hjk, s, hs1, hseq⟩
        have hs0 : s = 0 := by omega
        subst hs0
        exact pz_inj hs hjk hk0 (hseq.trans (pz_zero hs).symm)
    have heset0 : ∀ j, j ∈ (List.range (k - 1)).map Nat.succ ↔
        j < k ∧ j ∉ [0] := by
      intro j
      simp only [List.mem_map, List.mem_range, List.mem_singleton]
      constructor
      · rintro ⟨m, hm, rfl⟩
        exact ⟨by omega, by omega⟩
      · rintro ⟨hjk, hj0⟩
        exact ⟨j - 1, by omega, by omega⟩
    have hrun := traceOne_cycle_run hs (k - 2) 1 (by omega) (by omega) (k + 1)
      (by omega) ((List.range (k - 1)).map Nat.succ) [0] hnodup hstack0 heset0
    rw [hrun]
    have hnil : tracePolysGo edges k [] = some [] := by
      conv_lhs => rw [show k = (k - 1) + 1 from by omega]
      exact tracePolysGo_nil edges (k - 1)
    simp only [hnil]
  · simp
  · rw [map_range_headD, map_range_getLastD]
    exact (stepVert_cycle hs).symm
  · rw [consecPairs_map_range, map_eq_range_map edges undirEdge, hs.len]
    have hfuse : List.map undirEdge (List.map
        (fun s => (stepVert k v a0 d s, stepVert k v a0 d (s + 1))) (List.range k)) =
        List.map (fun s => undirEdge (stepVert k v a0 d s, stepVert k v a0 d (s + 1)))
          (List.range k) := by
      rw [List.map_map]
      rfl
    rw [hfuse]
    have hL : ∀ s ∈ List.range k,
        undirEdge (stepVert k v a0 d s, stepVert k v a0 d (s + 1)) =
        undirEdge (cycVert k v (stepEdge k a0 d s),
          cycVert k v (stepEdge k a0 d s + 1)) := by
      intro s _
      rcases stepEdge_pair hs s with ⟨h1, h2⟩ | ⟨h1, h2⟩
      · rw [h1, h2]
      · rw [h1, h2]
        exact undirEdge_swap _ _
    have hR : ∀ j ∈ List.range k,
        undirEdge (edges.getD j (0, 0)) =
        undirEdge (cycVert k v ((pi j : ZMod k)),
          cycVert k v ((pi j : ZMod k) + 1)) := by
      intro j hj
      rw [List.mem_range] at hj
      rcases edge_zmod hs hj with hE | hE
      · rw [hE]
      · rw [hE]
        exact undirEdge_swap _ _
    rw [List.map_congr_left hL, List.map_congr_left hR]
    have hLc : (List.range k).map (fun s => undirEdge (cycVert k v (stepEdge k a0 d s),
        cycVert k v (stepEdge k a0 d s + 1))) =
        ((List.range k).map (fun s => stepEdge k a0 d s)).map
          (fun z => undirEdge (cycVert k v z, cycVert k v (z + 1))) := by
      rw [List.map_map]
      rfl
    have hRc : (List.range k).map (fun j => undirEdge (cycVert k v ((pi j : ZMod k)),
        cycVert k v ((pi j : ZMod k) + 1))) =
        ((List.range k).map (fun j => ((pi j : ℕ) : ZMod k))).map
          (fun z => undirEdge (cycVert k v z, cycVert k v (z + 1))) := by
      rw [List.map_map]
      rfl
    rw [hLc, hRc]
    exact (cycle_perm hs).map _

/-- Witness for C9 on the concrete 3-cycle `[(0,1), (1,2), (2,0)]`. -/
theorem trace_poly_single_cycle_witness :
    IsSingleCycle [(0, 1), (1, 2), (2, 0)] 3 (fun i => i) (fun i => i) ∧
    ∃ p, trace_poly [(0, 1), (1, 2), (2, 0)] = some [p] ∧ p.length = 3 + 1 ∧
      p.headD 0 = p.getLastD 0 ∧
      ((consecPairs p).map undirEdge).Perm
        ([(0, 1), (1, 2), (2, 0)].map undirEdge) := by
  have hc : IsSingleCycle [(0, 1), (1, 2), (2, 0)] 3 (fun i => i) (fun i => i) := by
    refine ⟨by omega, rfl, ?_, ?_, ?_, ?_⟩
    · intro i j _ _ hij
      exact hij
    · intro j hj
      exact hj
    · intro i j _ _ hij
      exact hij
    · intro j hj
      interval_cases j
      · exact Or.inl rfl
      · exact Or.inl rfl
      · exact Or.inl rfl
  exact ⟨hc, trace_poly_single_cycle hc⟩

end CycleTrace

end Polyutils
